import Mathlib

/-!
Verification of the pdb-crawler repository against its specification.

The development shallowly embeds the four components of the crawler:

* `sample_ids` (src/pdb-crawler/pdb_crawler/sampling.py),
* `enumerate_entry_ids` (src/pdb-crawler/pdb_crawler/rcsb_client.py),
* `download_one` / `download_entries` (src/pdb-crawler/pdb_crawler/downloader.py),
* the `run-all` download loop (src/pdb-crawler/pdb_crawler/__main__.py).

Randomness (`random.Random` / `random.SystemRandom`) is abstracted by an
oracle of natural numbers feeding the exact Fisher-Yates swap sequence of
`random.shuffle`.  Network responses and filesystem contents are oracles.
Wall-clock quantities (elapsed_ms, sleep durations) are not modelled: they
feed no control-flow decision.  Python floats are rationals rounded to
IEEE-754 binary64 precision after each arithmetic step of the sampling
formula.
-/

namespace PdbCrawler

/-! ## Python value semantics used by the identifier extractor -/

/-- Value of a JSON record field as seen by the Python code: a string, an
integer, or `None` (also standing for an absent key, since `dict.get`
returns `None` then). -/
inductive PyVal where
  | pstr (s : String)
  | pint (n : Int)
  | pnone
deriving DecidableEq, Repr

/-- Python truthiness of a field value: `None` and empty strings and `0`
are falsy. -/
def PyVal.truthy : PyVal → Bool
  | .pstr s => s ≠ ""
  | .pint n => n ≠ 0
  | .pnone => false

/-- Python `a or b`: returns `a` when `a` is truthy, else `b`. -/
def pyOr (a b : PyVal) : PyVal :=
  if a.truthy then a else b

/-! ## Fisher-Yates shuffle (`random.shuffle` applied by the code)

Python's `random.shuffle(x)` runs
`for i in reversed(range(1, len(x))): j = randbelow(i+1); swap x[i] x[j]`.
The random draws are abstracted by an oracle `r`; `randbelow (i+1)` always
lies in `[0, i]`, which the embedding realises as `r i % (i + 1)`. -/

/-- Swap of the entries at positions `i` and `j` of a list
(`x[i], x[j] = x[j], x[i]`). -/
def listSwap (l : List String) (i j : Nat) : List String :=
  (l.set i (l.getD j "")).set j (l.getD i "")

/-- Descending sweep of Fisher-Yates: performs the swaps for
`i = n, n-1, ..., 1`. -/
def shuffleSweep (r : Nat → Nat) (l : List String) : Nat → List String
  | 0 => l
  | i + 1 => shuffleSweep r (listSwap l (i + 1) (r (i + 1) % (i + 2))) i

/-- Model of `rng.shuffle(pool)`: a full Fisher-Yates sweep from the last
index down to 1. -/
def shuffle_list (r : Nat → Nat) (l : List String) : List String :=
  shuffleSweep r l (l.length - 1)

theorem getD_cons_perm {xs : List String} {m : Nat} (hm : m < xs.length) (x : String) :
    List.Perm ((xs.getD m "") :: xs.set m x) (x :: xs) := by
  induction xs generalizing m with
  | nil => simp at hm
  | cons y ys ih =>
    cases m with
    | zero => simpa [List.getD] using List.Perm.swap x y ys
    | succ m =>
      have hm' : m < ys.length := by simpa using hm
      have h1 : List.Perm ((ys.getD m "") :: y :: ys.set m x)
          (y :: (ys.getD m "") :: ys.set m x) := List.Perm.swap _ _ _
      have h2 : List.Perm (y :: (ys.getD m "") :: ys.set m x) (y :: x :: ys) :=
        (ih hm').cons y
      have h3 : List.Perm (y :: x :: ys) (x :: y :: ys) := List.Perm.swap _ _ _
      simpa [List.getD] using (h1.trans h2).trans h3

theorem listSwap_perm (l : List String) (i j : Nat) (hi : i < l.length)
    (hj : j < l.length) : List.Perm (listSwap l i j) l := by
  induction l generalizing i j with
  | nil => simp at hi
  | cons x xs ih =>
    cases i with
    | zero =>
      cases j with
      | zero => simp [listSwap, List.getD]
      | succ m =>
        have hm : m < xs.length := by simpa using hj
        simpa [listSwap, List.getD] using getD_cons_perm hm x
    | succ k =>
      cases j with
      | zero =>
        have hk : k < xs.length := by simpa using hi
        simpa [listSwap, List.getD] using getD_cons_perm hk x
      | succ m =>
        have hk : k < xs.length := by simpa using hi
        have hm : m < xs.length := by simpa using hj
        simpa [listSwap, List.getD] using (ih k m hk hm).cons x

theorem shuffleSweep_perm (r : Nat → Nat) (l : List String) (n : Nat)
    (h : n < l.length) : List.Perm (shuffleSweep r l n) l := by
  induction n generalizing l with
  | zero => simp [shuffleSweep]
  | succ m ih =>
    have hj : r (m + 1) % (m + 2) < l.length := by
      have : r (m + 1) % (m + 2) < m + 2 := Nat.mod_lt _ (by omega)
      omega
    have hswap : List.Perm (listSwap l (m + 1) (r (m + 1) % (m + 2))) l :=
      listSwap_perm l _ _ h hj
    have hlen : (listSwap l (m + 1) (r (m + 1) % (m + 2))).length = l.length :=
      hswap.length_eq
    have hm : m < (listSwap l (m + 1) (r (m + 1) % (m + 2))).length := by omega
    exact (ih _ hm).trans hswap

/-- The shuffle used by the code is a permutation of its input. -/
theorem shuffle_list_perm (r : Nat → Nat) (l : List String) :
    List.Perm (shuffle_list r l) l := by
  cases l with
  | nil => simp [shuffle_list, shuffleSweep]
  | cons x xs =>
    exact shuffleSweep_perm r (x :: xs) _ (by simp)

theorem shuffle_list_length (r : Nat → Nat) (l : List String) :
    (shuffle_list r l).length = l.length :=
  (shuffle_list_perm r l).length_eq

/-! ## Binary64 arithmetic of the sampler

`sample_ids` computes `k = math.floor(n * (p / 100.0))` in IEEE-754
binary64.  A double is a rational number, and each arithmetic operation
rounds its exact rational result to the nearest representable value
(53 significant bits, round-to-nearest, ties-to-even); that rounding step
is embedded below.  The values reached by the sampler are far from the
overflow and subnormal ranges, so the normal-range rounding rule is the
exact semantics. -/

/-- Mantissa selected by binary64 round-to-nearest, ties-to-even, for a
positive rational: the value is scaled into the 53-bit window
`[2^52, 2^53)` and rounded to an integer. -/
def mantissaOf (q : ℚ) : ℤ :=
  if q / 2 ^ (Int.log 2 q - 52) - (⌊q / 2 ^ (Int.log 2 q - 52)⌋ : ℚ) < 1 / 2 then
    ⌊q / 2 ^ (Int.log 2 q - 52)⌋
  else if 1 / 2 < q / 2 ^ (Int.log 2 q - 52) - (⌊q / 2 ^ (Int.log 2 q - 52)⌋ : ℚ) then
    ⌊q / 2 ^ (Int.log 2 q - 52)⌋ + 1
  else if ⌊q / 2 ^ (Int.log 2 q - 52)⌋ % 2 = 0 then ⌊q / 2 ^ (Int.log 2 q - 52)⌋
  else ⌊q / 2 ^ (Int.log 2 q - 52)⌋ + 1

/-- Round a positive rational to the nearest binary64 value
(round-to-nearest, ties-to-even; normal range). -/
def flPos (q : ℚ) : ℚ :=
  (mantissaOf q : ℚ) * 2 ^ (Int.log 2 q - 52)

/-- Python `float(x)` of a rational value: exact rounding to binary64,
preserving sign and zero. -/
def pyFloat (q : ℚ) : ℚ :=
  if q = 0 then 0 else if 0 < q then flPos q else -flPos (-q)

/-- The float steps of `k = math.floor(n * (p / 100.0))` at
sampling.py:24 for a clamped positive percent `p`: the division
`p / 100.0`, the int-to-float conversion of `n`, and the multiplication
each round once; `math.floor` then truncates. -/
def floatFloorK (n : Nat) (p : ℚ) : Nat :=
  (⌊flPos (flPos (n : ℚ) * flPos (p / 100))⌋).toNat

theorem Int_log2_eq {q : ℚ} {k : ℤ} (hq : 0 < q) (h1 : (2 : ℚ) ^ k ≤ q)
    (h2 : q < (2 : ℚ) ^ (k + 1)) : Int.log 2 q = k := by
  have hle : k ≤ Int.log 2 q := by
    rw [← Int.zpow_le_iff_le_log (by norm_num) hq]
    exact_mod_cast h1
  have hlt : Int.log 2 q < k + 1 := by
    rw [← Int.lt_zpow_iff_log_lt (by norm_num) hq]
    exact_mod_cast h2
  omega

theorem mantissaOf_decomp {q : ℚ} {k m0 : ℤ} {r : ℚ}
    (hlog : Int.log 2 q = k)
    (hdec : q * 2 ^ (52 - k) = (m0 : ℚ) + r) (h0 : 0 ≤ r) (h1 : r < 1) :
    mantissaOf q
      = (if r < 1 / 2 then m0 else if 1 / 2 < r then m0 + 1
         else if m0 % 2 = 0 then m0 else m0 + 1) := by
  have hs : q / 2 ^ (Int.log 2 q - 52) = (m0 : ℚ) + r := by
    rw [hlog, div_eq_mul_inv, ← zpow_neg, neg_sub]
    exact hdec
  have hfl : ⌊(m0 : ℚ) + r⌋ = m0 := by
    rw [add_comm, Int.floor_add_int]
    have : ⌊r⌋ = 0 := Int.floor_eq_zero_iff.mpr ⟨h0, h1⟩
    omega
  unfold mantissaOf
  rw [hs, hfl]
  have hr : (m0 : ℚ) + r - (m0 : ℚ) = r := by ring
  rw [hr]

theorem flPos_round_down {q : ℚ} {k m0 : ℤ} {r : ℚ}
    (hlog : Int.log 2 q = k)
    (hdec : q * 2 ^ (52 - k) = (m0 : ℚ) + r) (h0 : 0 ≤ r) (h1 : r < 1 / 2) :
    flPos q = (m0 : ℚ) * 2 ^ (k - 52) := by
  unfold flPos
  rw [mantissaOf_decomp hlog hdec h0 (by linarith), hlog, if_pos h1]

theorem flPos_exact {q : ℚ} {k m0 : ℤ}
    (hlog : Int.log 2 q = k)
    (hdec : q * 2 ^ (52 - k) = (m0 : ℚ)) : flPos q = q := by
  have hdec0 : q * 2 ^ (52 - k) = (m0 : ℚ) + 0 := by rw [add_zero]; exact hdec
  unfold flPos
  rw [mantissaOf_decomp hlog hdec0 le_rfl (by norm_num), hlog, if_pos (by norm_num)]
  have hm : (m0 : ℚ) = q * 2 ^ (52 - k) := hdec.symm
  rw [hm, mul_assoc, ← zpow_add₀ (by norm_num : (2 : ℚ) ≠ 0),
    show (52 - k) + (k - 52) = 0 from by ring, zpow_zero, mul_one]

theorem flPos_pos {q : ℚ} (hq : 0 < q) : 0 < flPos q := by
  have hlow : (2 : ℚ) ^ Int.log 2 q ≤ q := by
    have := Int.zpow_log_le_self (b := 2) (by norm_num) hq
    exact_mod_cast this
  have hscaled : (2 : ℚ) ^ (52 : ℤ) ≤ q / 2 ^ (Int.log 2 q - 52) := by
    rw [div_eq_mul_inv, ← zpow_neg, neg_sub]
    calc (2 : ℚ) ^ (52 : ℤ) = 2 ^ Int.log 2 q * 2 ^ (52 - Int.log 2 q) := by
          rw [← zpow_add₀ (by norm_num : (2 : ℚ) ≠ 0)]
          ring_nf
      _ ≤ q * 2 ^ (52 - Int.log 2 q) := by
          apply mul_le_mul_of_nonneg_right hlow
          positivity
  have hm0 : (1 : ℤ) ≤ ⌊q / 2 ^ (Int.log 2 q - 52)⌋ := by
    rw [Int.le_floor]
    calc ((1 : ℤ) : ℚ) = 1 := by norm_num
      _ ≤ (2 : ℚ) ^ (52 : ℤ) := by
          rw [show ((52 : ℤ)) = ((52 : ℕ) : ℤ) from rfl, zpow_natCast]
          norm_num
      _ ≤ q / 2 ^ (Int.log 2 q - 52) := hscaled
  have hm : 1 ≤ mantissaOf q := by
    unfold mantissaOf
    split
    · exact hm0
    · split
      · omega
      · split
        · exact hm0
        · omega
  have hmq : (0 : ℚ) < (mantissaOf q : ℚ) := by
    exact_mod_cast lt_of_lt_of_le zero_lt_one hm
  unfold flPos
  positivity

theorem flPos_int_exact (n : ℕ) (h1 : 1 ≤ n) (h2 : (n : ℚ) < 2 ^ (53 : ℕ)) :
    flPos (n : ℚ) = (n : ℚ) := by
  have hq : (0 : ℚ) < n := by exact_mod_cast h1
  have hL0 : 0 ≤ Int.log 2 (n : ℚ) := by
    rw [← Int.zpow_le_iff_le_log (by norm_num) hq]
    simpa using (by exact_mod_cast h1 : (1 : ℚ) ≤ n)
  have hL52 : Int.log 2 (n : ℚ) ≤ 52 := by
    have h53 : Int.log 2 (n : ℚ) < 53 := by
      rw [← Int.lt_zpow_iff_log_lt (by norm_num) hq]
      calc (n : ℚ) < 2 ^ (53 : ℕ) := h2
        _ = ((2 : ℕ) : ℚ) ^ (53 : ℤ) := by
            rw [show ((53 : ℤ)) = ((53 : ℕ) : ℤ) from rfl, zpow_natCast]
            norm_num
    omega
  have hnn : 0 ≤ 52 - Int.log 2 (n : ℚ) := by omega
  have hdec : (n : ℚ) * 2 ^ (52 - Int.log 2 (n : ℚ))
      = (((n : ℤ) * 2 ^ (52 - Int.log 2 (n : ℚ)).toNat : ℤ) : ℚ) := by
    push_cast
    rw [← zpow_natCast (2 : ℚ), Int.toNat_of_nonneg hnn]
  exact flPos_exact rfl hdec

theorem pyFloat_pos {q : ℚ} (h : 0 < q) : 0 < pyFloat q := by
  unfold pyFloat
  rw [if_neg (ne_of_gt h), if_pos h]
  exact flPos_pos h

theorem pyFloat_nonpos {q : ℚ} (h : q ≤ 0) : pyFloat q ≤ 0 := by
  by_cases h0 : q = 0
  · simp [pyFloat, h0]
  · unfold pyFloat
    rw [if_neg h0, if_neg (not_lt.mpr h)]
    have hp : 0 < flPos (-q) := flPos_pos (by
      have hlt : q < 0 := lt_of_le_of_ne h h0
      linarith)
    linarith

/-! ## Sampler (`sample_ids`, sampling.py)

`percent` enters as `float(percent)` and is clamped to `[0, 100]`; the
size computation then rounds at every float operation.  The PRNG behind
`rng.shuffle` is the oracle `r` feeding the Fisher-Yates sweep above. -/

/-- Model of `sample_ids(ids, percent, seed)`.  The randomness of the
seeded/system RNG is the oracle `r`. -/
def sample_ids (ids : List String) (percent : ℚ) (r : Nat → Nat) : List String :=
  if ids = [] then []
  else
    let p := max 0 (min 100 (pyFloat percent))
    if p ≤ 0 then []
    else
      let n := ids.length
      let k0 := floatFloorK n p
      let k := max 1 (min n k0)
      let pool := ids
      (shuffle_list r pool).take k

/-! ### Store-passing variant

To make the no-mutation contract of `sample_ids` a non-vacuous statement,
the same body is embedded against an explicit heap of list objects: the
caller's sequence is a reference into the store, `pool = list(ids)`
allocates a fresh object, and `rng.shuffle(pool)` writes in place through
the pool's reference. -/

/-- Heap of Python list objects; a reference is an index into the heap. -/
abbrev Store := List (List String)

/-- Dereference a list object. -/
def readRef (s : Store) (ref : Nat) : List String :=
  List.getD s ref []

/-- Overwrite a list object in place. -/
def writeRef (s : Store) (ref : Nat) (v : List String) : Store :=
  List.set s ref v

/-- Allocate a fresh list object, returning the new store and the fresh
reference. -/
def allocRef (s : Store) (v : List String) : Store × Nat :=
  (s ++ [v], List.length s)

/-- Store-passing model of `sample_ids`: `idsRef` is the caller's list
object; the returned store reflects every mutation the body performs. -/
def sample_ids_st (s : Store) (idsRef : Nat) (percent : ℚ) (r : Nat → Nat) :
    Store × List String :=
  if readRef s idsRef = [] then (s, [])
  else
    let p := max 0 (min 100 (pyFloat percent))
    if p ≤ 0 then (s, [])
    else
      let n := (readRef s idsRef).length
      let k0 := floatFloorK n p
      let k := max 1 (min n k0)
      let alloc := allocRef s (readRef s idsRef)
      let s1 := alloc.1
      let poolRef := alloc.2
      let s2 := writeRef s1 poolRef (shuffle_list r (readRef s1 poolRef))
      (s2, (readRef s2 poolRef).take k)


/-! ## Store lemmas and the sampler frame property -/

theorem readRef_append_left {s : Store} {v : List String} {i : Nat} (h : i < s.length) :
    readRef (s ++ [v]) i = readRef s i := by
  unfold readRef
  rw [List.getD_eq_getElem?_getD, List.getD_eq_getElem?_getD, List.getElem?_append]
  simp [h]

theorem readRef_append_self (s : Store) (v : List String) :
    readRef (s ++ [v]) s.length = v := by
  unfold readRef
  rw [List.getD_eq_getElem?_getD, List.getElem?_concat_length]
  rfl

theorem readRef_writeRef_ne {s : Store} {i j : Nat} {v : List String} (h : i ≠ j) :
    readRef (writeRef s j v) i = readRef s i := by
  unfold readRef writeRef
  rw [List.getD_eq_getElem?_getD, List.getD_eq_getElem?_getD, List.getElem?_set_ne (by omega)]

theorem readRef_writeRef_self {s : Store} {j : Nat} {v : List String} (h : j < s.length) :
    readRef (writeRef s j v) j = v := by
  unfold readRef writeRef
  rw [List.getD_eq_getElem?_getD, List.getElem?_set_self']
  simp [List.getElem?_eq_getElem h]

theorem sample_ids_st_frame (s : Store) (idsRef : Nat) (percent : ℚ) (r : Nat → Nat)
    (href : idsRef < s.length) :
    readRef (sample_ids_st s idsRef percent r).1 idsRef = readRef s idsRef ∧
    (sample_ids_st s idsRef percent r).2 = sample_ids (readRef s idsRef) percent r := by
  by_cases hids : readRef s idsRef = []
  · constructor
    · simp [sample_ids_st, hids]
    · simp [sample_ids_st, sample_ids, hids]
  · by_cases hple : max 0 (min 100 (pyFloat percent)) ≤ 0
    · constructor
      · simp only [sample_ids_st, if_neg hids]
        simp [hple]
      · simp only [sample_ids_st, sample_ids, if_neg hids]
        simp [hple]
    · have hne : idsRef ≠ s.length := by omega
      have hlt : s.length < (s ++ [readRef s idsRef]).length := by simp
      have hpool : readRef (s ++ [readRef s idsRef]) s.length = readRef s idsRef :=
        readRef_append_self s _
      constructor
      · simp only [sample_ids_st, if_neg hids, if_neg hple, allocRef]
        rw [readRef_writeRef_ne hne, readRef_append_left href]
      · simp only [sample_ids_st, sample_ids, if_neg hids, if_neg hple, allocRef]
        rw [readRef_writeRef_self hlt, hpool]

/-- Length of the store never shrinks across a call to `sample_ids_st`. -/
theorem sample_ids_st_store_length (s : Store) (idsRef : Nat) (percent : ℚ) (r : Nat → Nat) :
    s.length ≤ (sample_ids_st s idsRef percent r).1.length := by
  by_cases hids : readRef s idsRef = []
  · simp [sample_ids_st, hids]
  · by_cases hple : max 0 (min 100 (pyFloat percent)) ≤ 0
    · simp only [sample_ids_st, if_neg hids]
      simp [hple]
    · simp only [sample_ids_st, if_neg hids, if_neg hple, allocRef, writeRef]
      simp



/-! ## Claim C4: full output contract of the sampler -/

/-- C4 counterexample: on 100 identifiers at percent 29 the program
returns 28 elements — in binary64, `100 * (29.0 / 100.0)` falls just
below 29, so `math.floor` gives 28 — while the exact-arithmetic formula
`max 1 (min n ⌊n * percent / 100⌋)` gives 29. -/
theorem C4_exact_floor_counterexample :
    (sample_ids (List.replicate 100 "A") 29 (fun _ => 0)).length = 28 ∧
    max 1 (min (List.replicate 100 "A" : List String).length
        (⌊((List.replicate 100 "A" : List String).length : ℚ) * 29 / 100⌋).toNat)
      = 29 := by
  constructor
  · have hpf : pyFloat (29 : ℚ) = 29 := by
      have h := flPos_int_exact 29 (by norm_num) (by norm_num)
      push_cast at h
      unfold pyFloat
      rw [if_neg (by norm_num), if_pos (by norm_num), h]
    have hfl100 : flPos (100 : ℚ) = 100 := by
      have h := flPos_int_exact 100 (by norm_num) (by norm_num)
      push_cast at h
      exact h
    have hfl1 : flPos ((29 : ℚ) / 100) = 5224175567749775 / 2 ^ (54 : ℕ) := by
      rw [flPos_round_down
        (Int_log2_eq (by norm_num) (by norm_num) (by norm_num) :
          Int.log 2 ((29 : ℚ) / 100) = -2)
        (show (29 : ℚ) / 100 * 2 ^ (52 - (-2 : ℤ))
            = ((5224175567749775 : ℤ) : ℚ) + 9 / 25 from by norm_num)
        (by norm_num) (by norm_num)]
      norm_num
    have hfl2 : flPos ((100 : ℚ) * (5224175567749775 / 2 ^ (54 : ℕ)))
        = 8162774324609023 / 2 ^ (48 : ℕ) := by
      rw [flPos_round_down
        (Int_log2_eq (by norm_num) (by norm_num) (by norm_num) :
          Int.log 2 ((100 : ℚ) * (5224175567749775 / 2 ^ (54 : ℕ))) = 4)
        (show (100 : ℚ) * (5224175567749775 / 2 ^ (54 : ℕ)) * 2 ^ (52 - (4 : ℤ))
            = ((8162774324609023 : ℤ) : ℚ) + 7 / 16 from by norm_num)
        (by norm_num) (by norm_num)]
      norm_num
    have hk0 : floatFloorK 100 29 = 28 := by
      unfold floatFloorK
      push_cast
      rw [hfl100, hfl1, hfl2]
      rw [show ⌊(8162774324609023 : ℚ) / 2 ^ (48 : ℕ)⌋ = 28 from by
        rw [Int.floor_eq_iff]
        constructor <;> norm_num]
      rfl
    have hne : (List.replicate 100 "A" : List String) ≠ [] := by
      simp
    have hple : ¬ (max 0 (min 100 (pyFloat (29 : ℚ))) ≤ 0) := by
      rw [hpf]
      norm_num
    have hres : sample_ids (List.replicate 100 "A") 29 (fun _ => 0)
        = (shuffle_list (fun _ => 0) (List.replicate 100 "A")).take
            (max 1 (min (List.replicate 100 "A" : List String).length
              (floatFloorK (List.replicate 100 "A" : List String).length
                (max 0 (min 100 (pyFloat 29)))))) := by
      simp only [sample_ids, if_neg hne, if_neg hple]
    rw [hres, List.length_take, shuffle_list_length, List.length_replicate, hpf,
      show max (0 : ℚ) (min 100 29) = 29 from by norm_num, hk0]
    decide
  · rw [List.length_replicate]
    norm_num
    decide

/-- C4 (amended): `sample_ids` returns `[]` for empty input or
`percent ≤ 0`; for nonempty input and positive percent its length is
`max 1 (min n (floatFloorK n p))`, the binary64 evaluation of
`floor(n * (p / 100.0))` at the clamped percent `p` clamped to `[1, n]` —
hence at least 1, and equal to `n` at percent 100 whenever `n < 2 ^ 53`;
and on duplicate-free input the result is a duplicate-free subset of the
input. -/
theorem C4_sample_ids_contract (ids : List String) (percent : ℚ) (r : Nat → Nat) :
    (ids = [] → sample_ids ids percent r = []) ∧
    (percent ≤ 0 → sample_ids ids percent r = []) ∧
    (ids ≠ [] → 0 < percent →
      (sample_ids ids percent r).length
          = max 1 (min ids.length
              (floatFloorK ids.length (max 0 (min 100 (pyFloat percent))))) ∧
      1 ≤ (sample_ids ids percent r).length ∧
      (percent = 100 → ids.length < 2 ^ 53 →
        (sample_ids ids percent r).length = ids.length)) ∧
    (ids.Nodup →
      (sample_ids ids percent r).Nodup ∧ ∀ x ∈ sample_ids ids percent r, x ∈ ids) := by
  refine ⟨fun h => by simp [sample_ids, h], fun h => ?_, fun hne hpos => ?_, fun hnd => ?_⟩
  · by_cases hids : ids = []
    · simp [sample_ids, hids]
    · have hple : max 0 (min 100 (pyFloat percent)) ≤ 0 :=
        max_le le_rfl ((min_le_right _ _).trans (pyFloat_nonpos h))
      simp only [sample_ids, if_neg hids]
      simp [hple]
  · have hn : 0 < ids.length := List.length_pos.mpr hne
    have hp0 : 0 < pyFloat percent := pyFloat_pos hpos
    have hple : ¬ (max 0 (min 100 (pyFloat percent)) ≤ 0) := by
      push_neg
      exact lt_of_lt_of_le (lt_min (by norm_num) hp0) (le_max_right _ _)
    have hres : sample_ids ids percent r
        = (shuffle_list r ids).take
            (max 1 (min ids.length
              (floatFloorK ids.length (max 0 (min 100 (pyFloat percent)))))) := by
      simp only [sample_ids, if_neg hne, if_neg hple]
    have hkn : max 1 (min ids.length
        (floatFloorK ids.length (max 0 (min 100 (pyFloat percent))))) ≤ ids.length :=
      max_le hn (min_le_left _ _)
    have hlen : (sample_ids ids percent r).length
        = max 1 (min ids.length
            (floatFloorK ids.length (max 0 (min 100 (pyFloat percent))))) := by
      rw [hres, List.length_take, shuffle_list_length, min_eq_left hkn]
    refine ⟨hlen, by rw [hlen]; exact le_max_left _ _, fun h100 hbig => ?_⟩
    have hpf : pyFloat (100 : ℚ) = 100 := by
      have h := flPos_int_exact 100 (by norm_num) (by norm_num)
      push_cast at h
      unfold pyFloat
      rw [if_neg (by norm_num), if_pos (by norm_num), h]
    have hclamp : max (0 : ℚ) (min 100 (pyFloat 100)) = 100 := by
      rw [hpf]
      norm_num
    have hfl1 : flPos ((1 : ℚ)) = 1 := by
      have h := flPos_int_exact 1 (by norm_num) (by norm_num)
      push_cast at h
      exact h
    have hfln : flPos ((ids.length : ℚ)) = (ids.length : ℚ) :=
      flPos_int_exact ids.length hn (by exact_mod_cast hbig)
    have hk : floatFloorK ids.length 100 = ids.length := by
      unfold floatFloorK
      rw [show ((100 : ℚ)) / 100 = 1 from by norm_num, hfl1, hfln, mul_one, hfln,
        Int.floor_natCast, Int.toNat_natCast]
    rw [hlen, h100, hclamp, hk, min_self, max_eq_right hn]
  · by_cases hids : ids = []
    · simp [sample_ids, hids]
    · by_cases hple : max 0 (min 100 (pyFloat percent)) ≤ 0
      · constructor
        · simp only [sample_ids, if_neg hids]
          simp [hple]
        · intro x hx
          simp only [sample_ids, if_neg hids] at hx
          simp [hple] at hx
      · have hres : sample_ids ids percent r
            = (shuffle_list r ids).take
              (max 1 (min ids.length
                (floatFloorK ids.length (max 0 (min 100 (pyFloat percent)))))) := by
          simp only [sample_ids, if_neg hids, if_neg hple]
        have hperm := shuffle_list_perm r ids
        have hndshuf : (shuffle_list r ids).Nodup := (hperm.nodup_iff).mpr hnd
        constructor
        · rw [hres]
          exact hndshuf.sublist (List.take_sublist _ _)
        · intro x hx
          rw [hres] at hx
          exact hperm.subset (List.take_subset _ _ hx)

/-- Witness for C4 at `ids = [a, b, c, d]`, `percent = 60`. -/
theorem C4_sample_ids_contract_witness :
    (["a", "b", "c", "d"] : List String) ≠ [] ∧ (0 : ℚ) < 60 ∧
    (sample_ids ["a", "b", "c", "d"] 60 (fun _ => 0)).length
      = max 1 (min (List.length (["a", "b", "c", "d"] : List String))
          (floatFloorK (List.length (["a", "b", "c", "d"] : List String))
            (max 0 (min 100 (pyFloat 60))))) :=
  ⟨by decide, by decide,
    ((C4_sample_ids_contract ["a", "b", "c", "d"] 60 (fun _ => 0)).2.2.1
      (by decide) (by decide)).1⟩

/-! ## Claim C10: the sampler does not mutate its input -/

/-- C10: in the store-passing model, `sample_ids_st` leaves the caller's
list object untouched (the shuffle happens on the freshly allocated copy),
so a second call on the same reference returns the same sample. -/
theorem C10_sample_ids_no_mutation (s : Store) (idsRef : Nat) (percent : ℚ)
    (r : Nat → Nat) (href : idsRef < s.length) :
    readRef (sample_ids_st s idsRef percent r).1 idsRef = readRef s idsRef ∧
    (sample_ids_st s idsRef percent r).2 = sample_ids (readRef s idsRef) percent r ∧
    (sample_ids_st (sample_ids_st s idsRef percent r).1 idsRef percent r).2
      = (sample_ids_st s idsRef percent r).2 := by
  have h1 := sample_ids_st_frame s idsRef percent r href
  have hlen : idsRef < (sample_ids_st s idsRef percent r).1.length :=
    lt_of_lt_of_le href (sample_ids_st_store_length s idsRef percent r)
  have h2 := sample_ids_st_frame _ idsRef percent r hlen
  exact ⟨h1.1, h1.2, by rw [h2.2, h1.1, h1.2]⟩

/-- Witness for C10 at a two-element list stored at reference 0. -/
theorem C10_sample_ids_no_mutation_witness :
    0 < ([["x", "y"]] : Store).length ∧
    readRef (sample_ids_st [["x", "y"]] 0 50 (fun _ => 0)).1 0
      = readRef [["x", "y"]] 0 ∧
    (sample_ids_st (sample_ids_st [["x", "y"]] 0 50 (fun _ => 0)).1 0 50
        (fun _ => 0)).2
      = (sample_ids_st [["x", "y"]] 0 50 (fun _ => 0)).2 :=
  ⟨by decide,
    (C10_sample_ids_no_mutation [["x", "y"]] 0 50 (fun _ => 0) (by decide)).1,
    (C10_sample_ids_no_mutation [["x", "y"]] 0 50 (fun _ => 0) (by decide)).2.2⟩


/-! ## Identifier Source (`enumerate_entry_ids`, rcsb_client.py) -/

/-- Result-page record carrying the three fields the extractor consults
(`identifier`, `entry_id`, `id`); an absent key reads as `pnone`. -/
structure Record where
  identifier : PyVal
  entry_id : PyVal
  id : PyVal
deriving DecidableEq, Repr

/-- Model of `item.get("identifier") or item.get("entry_id") or item.get("id")`
followed by the `isinstance(ident, str)` guard. -/
def extractIdent (rec : Record) : Option String :=
  match pyOr rec.identifier (pyOr rec.entry_id rec.id) with
  | .pstr s => some s
  | _ => none

/-- Observable steps of one enumeration run: the page-observed callback, the
paginated POST issued through `_post_with_retry` (retries are internal to
it and re-issue no callback), and each yielded identifier. -/
inductive EnumEvent where
  | onPageCall (start rows pageNum total : Nat)
  | pageQuery (start rows : Nat)
  | yielded (s : String)
deriving DecidableEq, Repr

/-- Paging loop of `enumerate_entry_ids`: `start` advances by `page_size`
while `start < total`, stopping early on an empty `result_set`; `pages k`
is the result set answered to the `k`-th POST.  Fuel bounds the recursion;
`total + 1` always suffices. -/
def enumGo (ps total : Nat) (pages : Nat → List Record) :
    Nat → Nat → Nat → List EnumEvent
  | 0, _, _ => []
  | fuel + 1, start, k =>
    if start < total then
      let rows := min ps (total - start)
      let pageNum := start / ps + 1
      EnumEvent.onPageCall start rows pageNum total ::
        EnumEvent.pageQuery start rows ::
        (if pages k = [] then []
         else ((pages k).filterMap extractIdent).map EnumEvent.yielded
                ++ enumGo ps total pages fuel (start + ps) (k + 1))
    else []

/-- Model of `enumerate_entry_ids(page_size, on_page)` given the server's
total count and per-request result sets. -/
def enumerate_entry_ids (page_size total : Nat) (pages : Nat → List Record) :
    Except String (List EnumEvent) :=
  if page_size ≤ 0 then Except.error "page_size must be positive"
  else Except.ok (enumGo page_size total pages (total + 1) 0 0)

/-- Query payloads (`start`, `rows`) issued during a run. -/
def queriesOf (tr : List EnumEvent) : List (Nat × Nat) :=
  tr.filterMap fun e =>
    match e with
    | .pageQuery s r => some (s, r)
    | _ => none

/-- Page-observed callback invocations during a run. -/
def onPagesOf (tr : List EnumEvent) : List (Nat × Nat × Nat × Nat) :=
  tr.filterMap fun e =>
    match e with
    | .onPageCall s r pn tot => some (s, r, pn, tot)
    | _ => none

/-- Identifiers yielded during a run. -/
def yieldsOf (tr : List EnumEvent) : List String :=
  tr.filterMap fun e =>
    match e with
    | .yielded s => some s
    | _ => none

theorem enumGo_zero (ps total : Nat) (pages : Nat → List Record) (start k : Nat) :
    enumGo ps total pages 0 start k = [] := rfl

theorem enumGo_succ (ps total : Nat) (pages : Nat → List Record) (fuel start k : Nat) :
    enumGo ps total pages (fuel + 1) start k
      = if start < total then
          EnumEvent.onPageCall start (min ps (total - start)) (start / ps + 1) total ::
            EnumEvent.pageQuery start (min ps (total - start)) ::
            (if pages k = [] then []
             else ((pages k).filterMap extractIdent).map EnumEvent.yielded
                    ++ enumGo ps total pages fuel (start + ps) (k + 1))
        else [] := rfl

@[simp] theorem queriesOf_nil : queriesOf [] = [] := rfl

@[simp] theorem queriesOf_onPage (s r pn tot : Nat) (tr : List EnumEvent) :
    queriesOf (EnumEvent.onPageCall s r pn tot :: tr) = queriesOf tr := rfl

@[simp] theorem queriesOf_query (s r : Nat) (tr : List EnumEvent) :
    queriesOf (EnumEvent.pageQuery s r :: tr) = (s, r) :: queriesOf tr := rfl

@[simp] theorem queriesOf_yield (x : String) (tr : List EnumEvent) :
    queriesOf (EnumEvent.yielded x :: tr) = queriesOf tr := rfl

@[simp] theorem onPagesOf_nil : onPagesOf [] = [] := rfl

@[simp] theorem onPagesOf_onPage (s r pn tot : Nat) (tr : List EnumEvent) :
    onPagesOf (EnumEvent.onPageCall s r pn tot :: tr) = (s, r, pn, tot) :: onPagesOf tr := rfl

@[simp] theorem onPagesOf_query (s r : Nat) (tr : List EnumEvent) :
    onPagesOf (EnumEvent.pageQuery s r :: tr) = onPagesOf tr := rfl

@[simp] theorem onPagesOf_yield (x : String) (tr : List EnumEvent) :
    onPagesOf (EnumEvent.yielded x :: tr) = onPagesOf tr := rfl

@[simp] theorem yieldsOf_nil : yieldsOf [] = [] := rfl

@[simp] theorem yieldsOf_onPage (s r pn tot : Nat) (tr : List EnumEvent) :
    yieldsOf (EnumEvent.onPageCall s r pn tot :: tr) = yieldsOf tr := rfl

@[simp] theorem yieldsOf_query (s r : Nat) (tr : List EnumEvent) :
    yieldsOf (EnumEvent.pageQuery s r :: tr) = yieldsOf tr := rfl

@[simp] theorem yieldsOf_yield (x : String) (tr : List EnumEvent) :
    yieldsOf (EnumEvent.yielded x :: tr) = x :: yieldsOf tr := rfl

theorem queriesOf_yields_append (l : List String) (tr : List EnumEvent) :
    queriesOf (l.map EnumEvent.yielded ++ tr) = queriesOf tr := by
  induction l with
  | nil => rfl
  | cons x xs ih => simpa using ih

theorem onPagesOf_yields_append (l : List String) (tr : List EnumEvent) :
    onPagesOf (l.map EnumEvent.yielded ++ tr) = onPagesOf tr := by
  induction l with
  | nil => rfl
  | cons x xs ih => simpa using ih

theorem yieldsOf_yields_append (l : List String) (tr : List EnumEvent) :
    yieldsOf (l.map EnumEvent.yielded ++ tr) = l ++ yieldsOf tr := by
  induction l with
  | nil => rfl
  | cons x xs ih => simpa using ih


theorem enumGo_queries_get (ps total : Nat) (pages : Nat → List Record) :
    ∀ (fuel k i : Nat) (q : Nat × Nat),
      (queriesOf (enumGo ps total pages fuel (k * ps) k))[i]? = some q →
      q = ((k + i) * ps, min ps (total - (k + i) * ps)) ∧ (k + i) * ps < total := by
  intro fuel
  induction fuel with
  | zero => intro k i q h; simp [enumGo_zero] at h
  | succ f ih =>
    intro k i q h
    rw [enumGo_succ] at h
    by_cases hlt : k * ps < total
    · rw [if_pos hlt] at h
      rcases i with _ | i
      · by_cases hpk : pages k = [] <;>
          simp [hpk, queriesOf_yields_append] at h <;>
          exact ⟨by simp [h.symm], by simpa using hlt⟩
      · by_cases hpk : pages k = []
        · simp [hpk] at h
        · rw [if_neg hpk] at h
          simp only [queriesOf_onPage, queriesOf_query, queriesOf_yields_append,
            List.getElem?_cons_succ] at h
          have hstart : k * ps + ps = (k + 1) * ps := by ring
          rw [hstart] at h
          have := ih (k + 1) i q h
          have heq : k + 1 + i = k + (i + 1) := by omega
          rw [heq] at this
          exact this
    · rw [if_neg hlt] at h
      simp at h


theorem enumGo_queries_length (ps total : Nat) (pages : Nat → List Record)
    (hps : 0 < ps) :
    ∀ (i fuel k : Nat), total + 1 ≤ fuel + k * ps → (k + i) * ps < total →
      (∀ j, j < i → pages (k + j) ≠ []) →
      i < (queriesOf (enumGo ps total pages fuel (k * ps) k)).length := by
  intro i
  induction i with
  | zero =>
    intro fuel k hfuel hlt _
    have hklt : k * ps < total := by simpa using hlt
    rcases fuel with _ | f
    · omega
    · rw [enumGo_succ, if_pos hklt]
      by_cases hpk : pages k = [] <;> simp [hpk, queriesOf_yields_append]
  | succ i ih =>
    intro fuel k hfuel hlt hne
    have hklt : k * ps < total := by
      have : k * ps ≤ (k + (i + 1)) * ps := Nat.mul_le_mul_right ps (by omega)
      omega
    rcases fuel with _ | f
    · omega
    · rw [enumGo_succ, if_pos hklt]
      have hpk : pages k ≠ [] := by simpa using hne 0 (by omega)
      rw [if_neg hpk]
      simp only [queriesOf_onPage, queriesOf_query, queriesOf_yields_append,
        List.length_cons]
      have hstart : k * ps + ps = (k + 1) * ps := by ring
      rw [hstart]
      have h1 : total + 1 ≤ f + (k + 1) * ps := by
        have : (k + 1) * ps = k * ps + ps := by ring
        omega
      have h2 : (k + 1 + i) * ps < total := by
        have : k + 1 + i = k + (i + 1) := by omega
        rwa [this]
      have h3 : ∀ j, j < i → pages (k + 1 + j) ≠ [] := by
        intro j hj
        have : k + 1 + j = k + (j + 1) := by omega
        rw [this]
        exact hne (j + 1) (by omega)
      have := ih f (k + 1) h1 h2 h3
      omega

theorem enumGo_queries_stop (ps total : Nat) (pages : Nat → List Record) :
    ∀ (fuel k j : Nat), pages (k + j) = [] →
      (queriesOf (enumGo ps total pages fuel (k * ps) k)).length ≤ j + 1 := by
  intro fuel
  induction fuel with
  | zero => intro k j _; simp [enumGo_zero]
  | succ f ih =>
    intro k j hj
    by_cases hlt : k * ps < total
    · rw [enumGo_succ, if_pos hlt]
      by_cases hpk : pages k = []
      · simp [hpk]
      · rw [if_neg hpk]
        simp only [queriesOf_onPage, queriesOf_query, queriesOf_yields_append,
          List.length_cons]
        rcases j with _ | j
        · simp at hj
          exact absurd hj hpk
        · have hstart : k * ps + ps = (k + 1) * ps := by ring
          rw [hstart]
          have : k + 1 + j = k + (j + 1) := by omega
          have := ih (k + 1) j (by rw [this]; exact hj)
          omega
    · rw [enumGo_succ, if_neg hlt]
      simp

theorem enumGo_onPages_eq (ps total : Nat) (pages : Nat → List Record) :
    ∀ (fuel start k : Nat),
      onPagesOf (enumGo ps total pages fuel start k)
        = (queriesOf (enumGo ps total pages fuel start k)).map
            (fun q => (q.1, q.2, q.1 / ps + 1, total)) := by
  intro fuel
  induction fuel with
  | zero => intro start k; simp [enumGo_zero]
  | succ f ih =>
    intro start k
    rw [enumGo_succ]
    by_cases hlt : start < total
    · rw [if_pos hlt]
      by_cases hpk : pages k = []
      · simp [hpk]
      · rw [if_neg hpk]
        simp only [onPagesOf_onPage, onPagesOf_query, onPagesOf_yields_append,
          queriesOf_onPage, queriesOf_query, queriesOf_yields_append, List.map_cons]
        rw [ih]
    · rw [if_neg hlt]; rfl


theorem enumGo_onPage_query_adjacent (ps total : Nat) (pages : Nat → List Record) :
    ∀ (fuel start k i s r pn tot : Nat),
      (enumGo ps total pages fuel start k)[i]? = some (EnumEvent.onPageCall s r pn tot) →
      (enumGo ps total pages fuel start k)[i + 1]? = some (EnumEvent.pageQuery s r) := by
  intro fuel
  induction fuel with
  | zero => intro start k i s r pn tot h; simp [enumGo_zero] at h
  | succ f ih =>
    intro start k i s r pn tot h
    rw [enumGo_succ] at h ⊢
    by_cases hlt : start < total
    · rw [if_pos hlt] at h ⊢
      rcases i with _ | _ | j
      · simp at h ⊢
        exact ⟨h.1, h.2.1⟩
      · simp at h
      · simp only [List.getElem?_cons_succ] at h ⊢
        by_cases hpk : pages k = []
        · rw [if_pos hpk] at h
          simp at h
        · rw [if_neg hpk] at h ⊢
          set l := ((pages k).filterMap extractIdent).map EnumEvent.yielded with hl
          by_cases hlen : j < l.length
          · exfalso
            rw [List.getElem?_append, if_pos hlen] at h
            have hy : ∃ y, l[j]? = some (EnumEvent.yielded y) := by
              rw [hl, List.getElem?_map]
              have hj2 : j < ((pages k).filterMap extractIdent).length := by
                simpa [hl] using hlen
              rw [List.getElem?_eq_getElem hj2]
              exact ⟨_, rfl⟩
            rcases hy with ⟨y, hy⟩
            rw [hy] at h
            simp at h
          · rw [List.getElem?_append, if_neg hlen] at h
            rw [List.getElem?_append, if_neg (by omega : ¬ (j + 1 < l.length))]
            have h3 : j + 1 - l.length = (j - l.length) + 1 := by omega
            rw [h3]
            exact ih _ _ _ _ _ _ _ h
    · rw [if_neg hlt] at h
      simp at h

theorem enumGo_yields_eq (ps total : Nat) (pages : Nat → List Record) :
    ∀ (fuel start k : Nat),
      yieldsOf (enumGo ps total pages fuel start k)
        = ((List.range (queriesOf (enumGo ps total pages fuel start k)).length).map
            (fun j => (pages (k + j)).filterMap extractIdent)).flatten := by
  intro fuel
  induction fuel with
  | zero => intro start k; simp [enumGo_zero]
  | succ f ih =>
    intro start k
    rw [enumGo_succ]
    by_cases hlt : start < total
    · rw [if_pos hlt]
      by_cases hpk : pages k = []
      · rw [if_pos hpk]
        simp [List.range_succ_eq_map, hpk]
      · rw [if_neg hpk]
        simp only [yieldsOf_onPage, yieldsOf_query, yieldsOf_yields_append,
          queriesOf_onPage, queriesOf_query, queriesOf_yields_append, List.length_cons]
        rw [List.range_succ_eq_map, List.map_cons, List.flatten_cons, Nat.add_zero]
        congr 1
        rw [ih (start + ps) (k + 1), List.map_map]
        apply congrArg
        apply List.map_congr_left
        intro j _
        show (pages (k + 1 + j)).filterMap extractIdent
            = (pages (k + Nat.succ j)).filterMap extractIdent
        have hkj : k + 1 + j = k + Nat.succ j := by omega
        rw [hkj]
    · rw [if_neg hlt]; rfl


/-! ## Claims C6, C7, C8: enumeration -/

/-- C6: with `total = 2500` and `page_size = 1000`, enumeration issues
exactly 3 page queries with rows `[1000, 1000, 500]` at starts
`[0, 1000, 2000]` and invokes `on_page` exactly 3 times with those values;
in general, successive queries at starts `0, ps, 2·ps, ...` are issued
exactly while `start < total` and no earlier page returned an empty result
set, and an empty page at index `j` stops the run at no more than `j + 1`
queries. -/
theorem C6_enumeration_pagination (pages : Nat → List Record)
    (h0 : pages 0 ≠ []) (h1 : pages 1 ≠ []) :
    (∃ tr, enumerate_entry_ids 1000 2500 pages = Except.ok tr ∧
      queriesOf tr = [(0, 1000), (1000, 1000), (2000, 500)] ∧
      onPagesOf tr = [(0, 1000, 1, 2500), (1000, 1000, 2, 2500), (2000, 500, 3, 2500)]) ∧
    (∀ (ps total : Nat) (pages2 : Nat → List Record) (tr : List EnumEvent),
      0 < ps → enumerate_entry_ids ps total pages2 = Except.ok tr →
      (∀ i q, (queriesOf tr)[i]? = some q →
        q = (i * ps, min ps (total - i * ps)) ∧ i * ps < total) ∧
      (∀ i, i * ps < total → (∀ j, j < i → pages2 j ≠ []) → i < (queriesOf tr).length) ∧
      (∀ j, pages2 j = [] → (queriesOf tr).length ≤ j + 1)) := by
  have hgen : ∀ (ps total : Nat) (pages2 : Nat → List Record) (tr : List EnumEvent),
      0 < ps → enumerate_entry_ids ps total pages2 = Except.ok tr →
      (∀ i q, (queriesOf tr)[i]? = some q →
        q = (i * ps, min ps (total - i * ps)) ∧ i * ps < total) ∧
      (∀ i, i * ps < total → (∀ j, j < i → pages2 j ≠ []) → i < (queriesOf tr).length) ∧
      (∀ j, pages2 j = [] → (queriesOf tr).length ≤ j + 1) := by
    intro ps total pages2 tr hps htr
    have hnle : ¬ (ps ≤ 0) := by omega
    rw [enumerate_entry_ids, if_neg hnle] at htr
    have htr2 : tr = enumGo ps total pages2 (total + 1) 0 0 := by
      injection htr with h
      exact h.symm
    have hzero : enumGo ps total pages2 (total + 1) 0 0
        = enumGo ps total pages2 (total + 1) (0 * ps) 0 := by
      rw [Nat.zero_mul]
    refine ⟨?_, ?_, ?_⟩
    · intro i q hq
      rw [htr2] at hq
      rw [hzero] at hq
      have := enumGo_queries_get ps total pages2 (total + 1) 0 i q hq
      simpa using this
    · intro i hi hne
      rw [htr2, hzero]
      apply enumGo_queries_length ps total pages2 hps i (total + 1) 0 (by omega)
      · simpa using hi
      · simpa using hne
    · intro j hj
      rw [htr2, hzero]
      have := enumGo_queries_stop ps total pages2 (total + 1) 0 j (by simpa using hj)
      exact this
  refine ⟨?_, hgen⟩
  have hok : enumerate_entry_ids 1000 2500 pages
      = Except.ok (enumGo 1000 2500 pages 2501 0 0) := by
    rw [enumerate_entry_ids, if_neg (by omega)]
  set tr := enumGo 1000 2500 pages 2501 0 0 with htrdef
  have hg := hgen 1000 2500 pages tr (by omega) hok
  have hlen : (queriesOf tr).length = 3 := by
    have hge : 2 < (queriesOf tr).length := by
      apply hg.2.1 2 (by omega)
      intro j hj
      interval_cases j
      · exact h0
      · exact h1
    have hle : (queriesOf tr).length ≤ 3 := by
      by_contra hcon
      have h3 : 3 < (queriesOf tr).length := by omega
      have hsome := List.getElem?_eq_getElem h3
      have := (hg.1 3 _ hsome).2
      omega
    omega
  have hqueries : queriesOf tr = [(0, 1000), (1000, 1000), (2000, 500)] := by
    apply List.ext_getElem?
    intro i
    by_cases hi : i < 3
    · have hsome := List.getElem?_eq_getElem (by omega : i < (queriesOf tr).length)
      have hval := hg.1 i _ hsome
      interval_cases i
      · rw [hsome, hval.1]; norm_num
      · rw [hsome, hval.1]; norm_num
      · rw [hsome, hval.1]; norm_num
    · rw [List.getElem?_eq_none (by omega), List.getElem?_eq_none (by simp; omega)]
  refine ⟨tr, hok, hqueries, ?_⟩
  have hop : onPagesOf tr = (queriesOf tr).map (fun q => (q.1, q.2, q.1 / 1000 + 1, 2500)) := by
    rw [htrdef]
    exact enumGo_onPages_eq 1000 2500 pages (2501) 0 0
  rw [hop, hqueries]
  norm_num


theorem C6_enumeration_pagination_witness :
    ((fun _ => [(⟨PyVal.pstr "1ABC", PyVal.pnone, PyVal.pnone⟩ : Record)])
        : Nat → List Record) 0 ≠ [] ∧
    ((fun _ => [(⟨PyVal.pstr "1ABC", PyVal.pnone, PyVal.pnone⟩ : Record)])
        : Nat → List Record) 1 ≠ [] ∧
    (∃ tr, enumerate_entry_ids 1000 2500
        (fun _ => [(⟨PyVal.pstr "1ABC", PyVal.pnone, PyVal.pnone⟩ : Record)])
        = Except.ok tr ∧
      queriesOf tr = [(0, 1000), (1000, 1000), (2000, 500)] ∧
      onPagesOf tr = [(0, 1000, 1, 2500), (1000, 1000, 2, 2500), (2000, 500, 3, 2500)]) :=
  ⟨by decide, by decide,
    (C6_enumeration_pagination
      (fun _ => [(⟨PyVal.pstr "1ABC", PyVal.pnone, PyVal.pnone⟩ : Record)])
      (by decide) (by decide)).1⟩

/-- Counterexample to C7 as stated: the code invokes `on_page` before the
page's network call (`_post_with_retry`), not after it succeeds.  In this
run the trace places the callback event at index 0 and the page's query at
index 1, i.e. the callback fired before the network call — here the page
even turned out empty. -/
theorem C7_on_page_precedes_query_counterexample :
    enumerate_entry_ids 1 1 (fun _ => [])
      = Except.ok [EnumEvent.onPageCall 0 1 1 1, EnumEvent.pageQuery 0 1] ∧
    [EnumEvent.onPageCall 0 1 1 1, EnumEvent.pageQuery 0 1][0]?
      = some (EnumEvent.onPageCall 0 1 1 1) ∧
    [EnumEvent.onPageCall 0 1 1 1, EnumEvent.pageQuery 0 1][1]?
      = some (EnumEvent.pageQuery 0 1) :=
  ⟨rfl, rfl, rfl⟩

/-- C7 (amended): for every page, `on_page` is invoked exactly once —
paired one-to-one with the page's query, with matching `start`/`rows` and
`page_number = start / page_size + 1` — and that invocation immediately
precedes the page's network call in the trace (hence it also precedes the
page's yielded identifiers); retries inside `_post_with_retry` never
re-invoke it. -/
theorem C7_on_page_once_before_query (ps total : Nat) (pages : Nat → List Record)
    (tr : List EnumEvent) (hps : 0 < ps)
    (htr : enumerate_entry_ids ps total pages = Except.ok tr) :
    onPagesOf tr = (queriesOf tr).map (fun q => (q.1, q.2, q.1 / ps + 1, total)) ∧
    (∀ i s r pn tot, tr[i]? = some (EnumEvent.onPageCall s r pn tot) →
      tr[i + 1]? = some (EnumEvent.pageQuery s r)) := by
  have hnle : ¬ (ps ≤ 0) := by omega
  rw [enumerate_entry_ids, if_neg hnle] at htr
  injection htr with h
  rw [← h]
  exact ⟨enumGo_onPages_eq ps total pages (total + 1) 0 0,
    fun i s r pn tot hh =>
      enumGo_onPage_query_adjacent ps total pages (total + 1) 0 0 i s r pn tot hh⟩

theorem C7_on_page_once_before_query_witness :
    ((0 : Nat) < 1 ∧
      enumerate_entry_ids 1 1 (fun _ => [])
        = Except.ok [EnumEvent.onPageCall 0 1 1 1, EnumEvent.pageQuery 0 1]) ∧
    onPagesOf [EnumEvent.onPageCall 0 1 1 1, EnumEvent.pageQuery 0 1]
      = (queriesOf [EnumEvent.onPageCall 0 1 1 1, EnumEvent.pageQuery 0 1]).map
          (fun q => (q.1, q.2, q.1 / 1 + 1, 1)) :=
  ⟨⟨by decide, rfl⟩,
    (C7_on_page_once_before_query 1 1 (fun _ => []) _ (by decide) rfl).1⟩

/-- Counterexample to C8 as stated: a record whose `identifier` field holds
the truthy non-string `7` and whose `entry_id` field holds the string
`"XYZ"` is skipped (no identifier yielded), although one of the three
fields holds a string value. -/
theorem C8_extraction_counterexample :
    (⟨PyVal.pint 7, PyVal.pstr "XYZ", PyVal.pnone⟩ : Record).entry_id = PyVal.pstr "XYZ" ∧
    enumerate_entry_ids 1 1 (fun _ => [⟨PyVal.pint 7, PyVal.pstr "XYZ", PyVal.pnone⟩])
      = Except.ok [EnumEvent.onPageCall 0 1 1 1, EnumEvent.pageQuery 0 1] ∧
    yieldsOf [EnumEvent.onPageCall 0 1 1 1, EnumEvent.pageQuery 0 1] = [] ∧
    extractIdent ⟨PyVal.pint 7, PyVal.pstr "XYZ", PyVal.pnone⟩ = none :=
  ⟨rfl, rfl, rfl, rfl⟩

/-- C8 (amended): extraction follows Python `or` semantics — the chain
value is the first truthy field among `identifier`, `entry_id`, `id` (or
the final `id` value when all are falsy) and the record yields exactly
when that chain value is a string; unextractable records are skipped
without failing enumeration, which still yields every extractable
identifier of every fetched page in order. -/
theorem C8_extraction_first_truthy :
    (∀ (rec : Record) (s : String), rec.identifier = PyVal.pstr s → s ≠ "" →
      extractIdent rec = some s) ∧
    (∀ (rec : Record) (s : String), rec.identifier.truthy = false →
      rec.entry_id = PyVal.pstr s → s ≠ "" → extractIdent rec = some s) ∧
    (∀ rec : Record, rec.identifier.truthy = false → rec.entry_id.truthy = false →
      ∀ s, (extractIdent rec = some s ↔ rec.id = PyVal.pstr s)) ∧
    (∀ (rec : Record) (n : Int), rec.identifier = PyVal.pint n → n ≠ 0 →
      extractIdent rec = none) ∧
    (∀ (ps total : Nat) (pages : Nat → List Record) (tr : List EnumEvent),
      0 < ps → enumerate_entry_ids ps total pages = Except.ok tr →
      yieldsOf tr = ((List.range (queriesOf tr).length).map
          (fun j => (pages j).filterMap extractIdent)).flatten) := by
  refine ⟨?_, ?_, ?_, ?_, ?_⟩
  · intro rec s hid hs
    simp [extractIdent, pyOr, hid, PyVal.truthy, hs]
  · intro rec s hidf hent hs
    have h1 : pyOr rec.entry_id rec.id = PyVal.pstr s := by
      simp [pyOr, hent, PyVal.truthy, hs]
    have hch : pyOr rec.identifier (pyOr rec.entry_id rec.id) = PyVal.pstr s := by
      rw [h1]
      simp [pyOr, hidf]
    simp [extractIdent, hch]
  · intro rec hidf hentf s
    have h1 : pyOr rec.entry_id rec.id = rec.id := by simp [pyOr, hentf]
    have hch : pyOr rec.identifier (pyOr rec.entry_id rec.id) = rec.id := by
      rw [h1]
      simp [pyOr, hidf]
    simp only [extractIdent, hch]
    cases hrid : rec.id <;> simp [hrid]
  · intro rec n hid hn
    simp [extractIdent, pyOr, hid, PyVal.truthy, hn]
  · intro ps total pages tr hps htr
    have hnle : ¬ (ps ≤ 0) := by omega
    rw [enumerate_entry_ids, if_neg hnle] at htr
    injection htr with h
    rw [← h]
    have := enumGo_yields_eq ps total pages (total + 1) 0 0
    simpa using this

theorem C8_extraction_first_truthy_witness :
    ((⟨PyVal.pstr "1ABC", PyVal.pnone, PyVal.pnone⟩ : Record).identifier
        = PyVal.pstr "1ABC" ∧ "1ABC" ≠ "") ∧
    extractIdent ⟨PyVal.pstr "1ABC", PyVal.pnone, PyVal.pnone⟩ = some "1ABC" :=
  ⟨⟨rfl, by decide⟩,
    C8_extraction_first_truthy.1 ⟨PyVal.pstr "1ABC", PyVal.pnone, PyVal.pnone⟩
      "1ABC" rfl (by decide)⟩


/-! ## Fetch Engine (`_download_one` / `download_entries`, downloader.py)

Per-identifier network behaviour and filesystem state are oracles: `resps k`
is the response to the identifier's `k`-th GET (the code numbers GETs by its
`attempt` counter) and `existsNonempty` tells whether the target file
already exists with positive size.  The semaphore, the TCP connector and
every sleep (initial jitter, backoff, `Retry-After`) affect timing only and
are unobservable here; the embedding runs the per-identifier tasks in task
order, which fixes one interleaving of the event stream.  `elapsed_ms`
event fields are wall-clock and are omitted. -/

/-- Python `str.lower()` (on the ASCII format/identifier strings used here). -/
def pyLower (s : String) : String :=
  ⟨s.data.map Char.toLower⟩

/-- Python `str.strip()`. -/
def pyStrip (s : String) : String :=
  ⟨(((s.data.dropWhile Char.isWhitespace).reverse).dropWhile Char.isWhitespace).reverse⟩

/-- One HTTP GET outcome: a status response (with the optional `Retry-After`
header, which only shapes the sleep, and the body length read on 200), or a
raised connection/timeout error carrying the exception type name. -/
inductive HttpResp where
  | status (code : Nat) (retryAfter : Option String) (bodyLen : Nat)
  | netErr (name : String)
deriving DecidableEq, Repr

/-- Downloader events passed to `on_event` (`elapsed_ms` omitted). -/
inductive DLEvent where
  | skip (id path : String)
  | ok (id path : String) (sizeBytes attempts : Nat)
  | err (id path : String) (status : Option Nat) (reason : String) (attempts : Nat)
deriving DecidableEq, Repr

/-- Success as counted by the orchestrator: `download_ok` or `download_skip`. -/
def DLEvent.isSuccess : DLEvent → Bool
  | .skip _ _ => true
  | .ok _ _ _ _ => true
  | .err _ _ _ _ _ => false

/-- Retry loop of `_download_one` (the `while True` after the skip check).
`attempt` starts at 0; the fuel `maxRetries + 1 - attempt` is an upper bound
on the remaining GETs, so the zero-fuel default is unreachable from the
initial call. -/
def downloadGo (entry_id path : String) (maxRetries : Nat) (resps : Nat → HttpResp) :
    Nat → Nat → Option String × List DLEvent
  | 0, _ => (none, [])
  | fuel + 1, attempt =>
    match resps attempt with
    | .status 200 _ bodyLen =>
        (some path, [DLEvent.ok entry_id path bodyLen (attempt + 1)])
    | .status 429 _ _ =>
        if attempt + 1 > maxRetries then
          (none, [DLEvent.err entry_id path (some 429) "rate_limited" (attempt + 1)])
        else downloadGo entry_id path maxRetries resps fuel (attempt + 1)
    | .status code _ _ =>
        if 500 ≤ code ∧ code < 600 then
          if attempt + 1 > maxRetries then
            (none, [DLEvent.err entry_id path (some code) "server_error" (attempt + 1)])
          else downloadGo entry_id path maxRetries resps fuel (attempt + 1)
        else
          (none, [DLEvent.err entry_id path (some code) "client_error" (attempt + 1)])
    | .netErr name =>
        if attempt ≥ maxRetries then
          (none, [DLEvent.err entry_id path none name (attempt + 1)])
        else downloadGo entry_id path maxRetries resps fuel (attempt + 1)

/-- Target path computed by `_download_one`. -/
def targetOf (out_dir entry_id file_format : String) : String :=
  out_dir ++ "/" ++ entry_id ++ "." ++ (if pyLower file_format = "cif" then "cif" else "pdb")

/-- Model of `_download_one`: skip-if-exists, else the retry loop. -/
def download_one (out_dir entry_id file_format : String) (existsNonempty : Bool)
    (maxRetries : Nat) (resps : Nat → HttpResp) : Option String × List DLEvent :=
  let target := targetOf out_dir entry_id file_format
  if existsNonempty then (some target, [DLEvent.skip entry_id target])
  else downloadGo entry_id target maxRetries resps (maxRetries + 1) 0

/-- Oracle for one identifier slot: filesystem state and response stream. -/
structure IdEnv where
  existsNonempty : Bool
  resps : Nat → HttpResp

/-- The id cleanup at the top of `download_entries`:
`[i.strip() for i in entry_ids if i and i.strip()]`. -/
def cleanIds (entry_ids : List String) : List String :=
  entry_ids.filterMap fun i =>
    if i ≠ "" ∧ pyStrip i ≠ "" then some (pyStrip i) else none

/-- The task list `[_download_one(session, out_path, eid, fmt, ...) for eid
in ids]`; `k` is the task's position, selecting its oracle. -/
def downloadAll (out_dir fmt : String) (maxRetries : Nat) (env : Nat → IdEnv) :
    List String → Nat → List (Option String × List DLEvent)
  | [], _ => []
  | i :: rest, k =>
      download_one out_dir i fmt (env k).existsNonempty maxRetries (env k).resps ::
        downloadAll out_dir fmt maxRetries env rest (k + 1)

/-- Model of `download_entries`: cleanup, empty-check, format check, then
the gathered per-identifier results (paths of the non-`None` results, and
the concatenated event stream). -/
def download_entries (entry_ids : List String) (out_dir file_format : String)
    (maxRetries : Nat) (env : Nat → IdEnv) :
    Except String (List String × List DLEvent) :=
  let ids := cleanIds entry_ids
  if ids = [] then Except.ok ([], [])
  else
    let fmt := pyLower file_format
    if fmt ≠ "cif" ∧ fmt ≠ "pdb" then
      Except.error "file_format must be cif or pdb"
    else
      let results := downloadAll out_dir fmt maxRetries env ids 0
      Except.ok (results.filterMap Prod.fst, (results.map Prod.snd).flatten)


theorem downloadGo_200 (entry_id path : String) (mr : Nat) (rs : Nat → HttpResp)
    (fuel attempt : Nat) (ra : Option String) (L : Nat)
    (h : rs attempt = HttpResp.status 200 ra L) :
    downloadGo entry_id path mr rs (fuel + 1) attempt
      = (some path, [DLEvent.ok entry_id path L (attempt + 1)]) := by
  simp [downloadGo, h]

theorem downloadGo_429_continue (entry_id path : String) (mr : Nat) (rs : Nat → HttpResp)
    (fuel attempt : Nat) (ra : Option String) (b : Nat)
    (h : rs attempt = HttpResp.status 429 ra b) (hle : attempt + 1 ≤ mr) :
    downloadGo entry_id path mr rs (fuel + 1) attempt
      = downloadGo entry_id path mr rs fuel (attempt + 1) := by
  simp only [downloadGo, h]
  rw [if_neg (by omega)]


theorem downloadGo_single_event (entry_id path : String) (mr : Nat) (rs : Nat → HttpResp) :
    ∀ (fuel attempt : Nat), fuel + attempt = mr + 1 → 1 ≤ fuel →
      ∃ e : DLEvent,
        (downloadGo entry_id path mr rs fuel attempt).2 = [e] ∧
        (downloadGo entry_id path mr rs fuel attempt).1
          = (if e.isSuccess then some path else none) := by
  intro fuel
  induction fuel with
  | zero => intro attempt _ h1; omega
  | succ f ih =>
    intro attempt hsum _
    cases hr : rs attempt with
    | status code ra b =>
      by_cases h200 : code = 200
      · subst h200
        rw [downloadGo_200 entry_id path mr rs f attempt ra b hr]
        exact ⟨DLEvent.ok entry_id path b (attempt + 1), rfl, rfl⟩
      · by_cases h429 : code = 429
        · subst h429
          by_cases hgt : attempt + 1 > mr
          · refine ⟨DLEvent.err entry_id path (some 429) "rate_limited" (attempt + 1), ?_, ?_⟩ <;>
              simp [downloadGo, hr, if_pos hgt, DLEvent.isSuccess]
          · rw [downloadGo_429_continue entry_id path mr rs f attempt ra b hr (by omega)]
            exact ih (attempt + 1) (by omega) (by omega)
        · by_cases h5xx : 500 ≤ code ∧ code < 600
          · by_cases hgt : attempt + 1 > mr
            · refine ⟨DLEvent.err entry_id path (some code) "server_error" (attempt + 1), ?_, ?_⟩ <;>
                simp [downloadGo, hr, h200, h429, if_pos h5xx, if_pos hgt, DLEvent.isSuccess]
            · have hstep : downloadGo entry_id path mr rs (f + 1) attempt
                  = downloadGo entry_id path mr rs f (attempt + 1) := by
                simp [downloadGo, hr, h200, h429, if_pos h5xx,
                  if_neg (by omega : ¬ (attempt + 1 > mr))]
              rw [hstep]
              exact ih (attempt + 1) (by omega) (by omega)
          · refine ⟨DLEvent.err entry_id path (some code) "client_error" (attempt + 1), ?_, ?_⟩ <;>
              simp [downloadGo, hr, h200, h429, if_neg h5xx, DLEvent.isSuccess]
    | netErr name =>
      by_cases hge : attempt ≥ mr
      · refine ⟨DLEvent.err entry_id path none name (attempt + 1), ?_, ?_⟩ <;>
          simp [downloadGo, hr, if_pos hge, DLEvent.isSuccess]
      · have hstep : downloadGo entry_id path mr rs (f + 1) attempt
            = downloadGo entry_id path mr rs f (attempt + 1) := by
          simp [downloadGo, hr, if_neg hge]
        rw [hstep]
        exact ih (attempt + 1) (by omega) (by omega)


theorem download_one_single_event (out_dir entry_id fmt : String) (ex : Bool)
    (mr : Nat) (rs : Nat → HttpResp) :
    ∃ e : DLEvent,
      (download_one out_dir entry_id fmt ex mr rs).2 = [e] ∧
      (download_one out_dir entry_id fmt ex mr rs).1
        = (if e.isSuccess then some (targetOf out_dir entry_id fmt) else none) := by
  cases ex with
  | true =>
    exact ⟨DLEvent.skip entry_id (targetOf out_dir entry_id fmt), rfl, rfl⟩
  | false =>
    have h := downloadGo_single_event entry_id (targetOf out_dir entry_id fmt) mr rs
      (mr + 1) 0 (by omega) (by omega)
    simpa [download_one] using h

theorem downloadAll_shape (out_dir fmt : String) (mr : Nat) (env : Nat → IdEnv) :
    ∀ (ids : List String) (k : Nat),
      ∃ es : List DLEvent,
        ((downloadAll out_dir fmt mr env ids k).map Prod.snd).flatten = es ∧
        es.length = ids.length ∧
        (downloadAll out_dir fmt mr env ids k).filterMap Prod.fst
          = (ids.zip es).filterMap
              (fun p => if p.2.isSuccess then some (targetOf out_dir p.1 fmt) else none) := by
  intro ids
  induction ids with
  | nil => intro k; exact ⟨[], rfl, rfl, rfl⟩
  | cons i rest ih =>
    intro k
    obtain ⟨e, he2, he1⟩ := download_one_single_event out_dir i fmt
      (env k).existsNonempty mr (env k).resps
    obtain ⟨es, hes, hlen, hpaths⟩ := ih (k + 1)
    refine ⟨e :: es, ?_, by simpa using hlen, ?_⟩
    · simp [downloadAll, he2, hes]
    · cases hse : e.isSuccess <;>
        simp [downloadAll, List.filterMap_cons, he1, hpaths, hse]


/-! ## Claims C1, C5, C9: fetch engine -/

/-- Counterexample to C1 as stated: one identifier whose target file
already exists non-empty produces only a `download_skip` event (no HTTP 200
write happened in this call), yet its path IS in the returned list —
`_download_one` returns `target` in the skip branch and `download_entries`
keeps every non-`None` result. -/
theorem C1_skip_path_returned_counterexample :
    download_entries ["1ABC"] "downloads" "pdb" 5
        (fun _ => ⟨true, fun _ => HttpResp.status 200 none 0⟩)
      = Except.ok (["downloads/1ABC.pdb"],
          [DLEvent.skip "1ABC" "downloads/1ABC.pdb"]) := rfl

/-- C1 (amended): `download_entries` emits exactly one terminal event per
cleaned identifier and returns exactly the target paths of the identifiers
whose event is a success event — `download_ok` OR `download_skip` — so
skip-due-to-exists paths are included alongside fresh 200 writes; only
error outcomes are excluded. -/
theorem C1_download_entries_returned_paths (entry_ids : List String)
    (out_dir file_format : String) (mr : Nat) (env : Nat → IdEnv)
    (paths : List String) (evs : List DLEvent)
    (h : download_entries entry_ids out_dir file_format mr env
        = Except.ok (paths, evs)) :
    evs.length = (cleanIds entry_ids).length ∧
    paths = ((cleanIds entry_ids).zip evs).filterMap
        (fun p => if p.2.isSuccess
          then some (targetOf out_dir p.1 (pyLower file_format)) else none) := by
  by_cases hids : cleanIds entry_ids = []
  · rw [download_entries, if_pos hids] at h
    injection h with h
    rw [Prod.mk.injEq] at h
    rw [hids, ← h.1, ← h.2]
    simp
  · by_cases hfmt : pyLower file_format ≠ "cif" ∧ pyLower file_format ≠ "pdb"
    · rw [download_entries, if_neg hids] at h
      simp only [if_pos hfmt] at h
      exact absurd h (by simp)
    · rw [download_entries, if_neg hids] at h
      simp only [if_neg hfmt] at h
      obtain ⟨es, hes, hlen, hpaths⟩ :=
        downloadAll_shape out_dir (pyLower file_format) mr env (cleanIds entry_ids) 0
      injection h with h
      rw [Prod.mk.injEq] at h
      rw [← h.1, ← h.2, hes, hpaths, hlen]
      exact ⟨rfl, rfl⟩

/-- C5: a single-identifier download answered 429, 429, then 200 (with
`max_retries ≥ 2`) produces exactly one `download_ok` event with
`attempts = 3`, no `download_error` event, and returns the written path. -/
theorem C5_retry_429_then_ok (mr : Nat) (hmr : 2 ≤ mr) (out_dir entry_id : String)
    (hne : entry_id ≠ "") (hstrip : pyStrip entry_id = entry_id)
    (ra1 ra2 : Option String) (L : Nat) :
    download_entries [entry_id] out_dir "pdb" mr
        (fun _ => ⟨false, fun k =>
          if k = 0 then HttpResp.status 429 ra1 0
          else if k = 1 then HttpResp.status 429 ra2 0
          else HttpResp.status 200 none L⟩)
      = Except.ok ([targetOf out_dir entry_id "pdb"],
          [DLEvent.ok entry_id (targetOf out_dir entry_id "pdb") L 3]) := by
  obtain ⟨m, rfl⟩ : ∃ m, mr = m + 2 := ⟨mr - 2, by omega⟩
  have hclean : cleanIds [entry_id] = [entry_id] := by
    simp [cleanIds, hne, hstrip]
  have hfl : pyLower "pdb" = "pdb" := by decide
  set rs : Nat → HttpResp := fun k =>
    if k = 0 then HttpResp.status 429 ra1 0
    else if k = 1 then HttpResp.status 429 ra2 0
    else HttpResp.status 200 none L with hrs
  have h0 : rs 0 = HttpResp.status 429 ra1 0 := rfl
  have h1 : rs 1 = HttpResp.status 429 ra2 0 := rfl
  have h2 : rs 2 = HttpResp.status 200 none L := rfl
  have hgo : downloadGo entry_id (targetOf out_dir entry_id "pdb") (m + 2) rs (m + 3) 0
      = (some (targetOf out_dir entry_id "pdb"),
         [DLEvent.ok entry_id (targetOf out_dir entry_id "pdb") L 3]) := by
    rw [show m + 3 = (m + 2) + 1 from rfl,
      downloadGo_429_continue _ _ _ _ _ _ ra1 0 h0 (by omega)]
    rw [show m + 2 = (m + 1) + 1 from rfl,
      downloadGo_429_continue _ _ _ _ _ _ ra2 0 h1 (by omega)]
    rw [show m + 1 = m + 1 from rfl, downloadGo_200 _ _ _ _ m 2 none L h2]
  rw [download_entries, hclean, if_neg (by simp)]
  rw [if_neg (by rw [hfl]; simp)]
  simp only [downloadAll, download_one, hfl, Bool.false_eq_true, if_false, hgo]
  rfl

/-- Counterexample to C9 as stated: with an empty identifier list and the
unrecognized format "xml", `download_entries` returns an empty result
instead of failing — the empty-input check precedes the format check. -/
theorem C9_empty_list_no_error_counterexample :
    pyLower "xml" ≠ "cif" ∧ pyLower "xml" ≠ "pdb" ∧
    download_entries [] "downloads" "xml" 5
        (fun _ => ⟨false, fun _ => HttpResp.status 200 none 0⟩)
      = Except.ok ([], []) :=
  ⟨by decide, by decide, rfl⟩

/-- C9 (amended): when the cleaned identifier list is empty,
`download_entries` returns an empty result regardless of format; otherwise
an unrecognized format fails with the InvalidArgument error before any
I/O (no events are emitted and no paths returned). -/
theorem C9_invalid_format_check (entry_ids : List String)
    (out_dir file_format : String) (mr : Nat) (env : Nat → IdEnv) :
    (cleanIds entry_ids = [] →
      download_entries entry_ids out_dir file_format mr env = Except.ok ([], [])) ∧
    (cleanIds entry_ids ≠ [] → pyLower file_format ≠ "cif" →
      pyLower file_format ≠ "pdb" →
      download_entries entry_ids out_dir file_format mr env
        = Except.error "file_format must be cif or pdb") := by
  constructor
  · intro hids
    rw [download_entries, if_pos hids]
  · intro hids hcif hpdb
    rw [download_entries, if_neg hids]
    simp only [if_pos (⟨hcif, hpdb⟩ : pyLower file_format ≠ "cif" ∧ pyLower file_format ≠ "pdb")]

theorem C9_invalid_format_check_witness :
    cleanIds ["1ABC"] ≠ [] ∧ pyLower "xml" ≠ "cif" ∧ pyLower "xml" ≠ "pdb" ∧
    download_entries ["1ABC"] "downloads" "xml" 5
        (fun _ => ⟨false, fun _ => HttpResp.status 200 none 0⟩)
      = Except.error "file_format must be cif or pdb" :=
  ⟨by decide, by decide, by decide,
    (C9_invalid_format_check ["1ABC"] "downloads" "xml" 5
        (fun _ => ⟨false, fun _ => HttpResp.status 200 none 0⟩)).2
      (by decide) (by decide) (by decide)⟩


theorem C1_download_entries_returned_paths_witness :
    download_entries [" 1ABC ", "2XYZ"] "d" "CIF" 5
        (fun k => if k = 0 then ⟨false, fun _ => HttpResp.status 404 none 0⟩
          else ⟨true, fun _ => HttpResp.status 200 none 0⟩)
      = Except.ok (["d/2XYZ.cif"],
          [DLEvent.err "1ABC" "d/1ABC.cif" (some 404) "client_error" 1,
           DLEvent.skip "2XYZ" "d/2XYZ.cif"]) ∧
    ([DLEvent.err "1ABC" "d/1ABC.cif" (some 404) "client_error" 1,
      DLEvent.skip "2XYZ" "d/2XYZ.cif"].length
        = (cleanIds [" 1ABC ", "2XYZ"]).length ∧
     ["d/2XYZ.cif"]
        = ((cleanIds [" 1ABC ", "2XYZ"]).zip
            [DLEvent.err "1ABC" "d/1ABC.cif" (some 404) "client_error" 1,
             DLEvent.skip "2XYZ" "d/2XYZ.cif"]).filterMap
            (fun p => if p.2.isSuccess
              then some (targetOf "d" p.1 (pyLower "CIF")) else none)) :=
  ⟨rfl,
    C1_download_entries_returned_paths [" 1ABC ", "2XYZ"] "d" "CIF" 5
      (fun k => if k = 0 then ⟨false, fun _ => HttpResp.status 404 none 0⟩
        else ⟨true, fun _ => HttpResp.status 200 none 0⟩)
      ["d/2XYZ.cif"]
      [DLEvent.err "1ABC" "d/1ABC.cif" (some 404) "client_error" 1,
       DLEvent.skip "2XYZ" "d/2XYZ.cif"] rfl⟩

theorem C5_retry_429_then_ok_witness :
    ((2 : Nat) ≤ 5 ∧ ("1ABC" : String) ≠ "" ∧ pyStrip "1ABC" = "1ABC") ∧
    download_entries ["1ABC"] "downloads" "pdb" 5
        (fun _ => ⟨false, fun k =>
          if k = 0 then HttpResp.status 429 none 0
          else if k = 1 then HttpResp.status 429 (some "2.5") 0
          else HttpResp.status 200 none 77⟩)
      = Except.ok ([targetOf "downloads" "1ABC" "pdb"],
          [DLEvent.ok "1ABC" (targetOf "downloads" "1ABC" "pdb") 77 3]) :=
  ⟨⟨by decide, by decide, by decide⟩,
    C5_retry_429_then_ok 5 (by decide) "downloads" "1ABC" (by decide) (by decide)
      none (some "2.5") 77⟩


/-! ## Orchestrator download loop (`run_all`, __main__.py lines 230-271)

The loop state mirrors the Python locals: `success_count`, `idx`,
`attempt_order`, `attempted_set` (a list used only through membership) and
the number of top-ups performed so far (each top-up builds a fresh RNG, so
the shuffle oracle is indexed per top-up round).  Download outcomes are an
oracle by global attempt position; by `download_one_single_event` each
cleaned identifier contributes exactly one terminal event, which is what
`on_event` counts.  The loop itself is fuel-indexed; termination is the
statement that a computable fuel bound always returns `some`. -/

/-- Terminal outcome of one attempted download, as observed via events. -/
inductive Outcome where
  | ok
  | skip
  | err
deriving DecidableEq, Repr

/-- Events observable from the download loop. -/
inductive LoopEvent where
  | batchStart (count : Nat)
  | dlOk (id : String)
  | dlSkip (id : String)
  | dlErr (id : String)
  | topup (added attemptTotal : Nat)
  | exhausted (attempted success target : Nat)
  | summary (success target : Nat)
deriving DecidableEq, Repr

/-- Event emitted for one identifier with the given outcome. -/
def eventOfOutcome : Outcome → String → LoopEvent
  | .ok, i => .dlOk i
  | .skip, i => .dlSkip i
  | .err, i => .dlErr i

/-- Does `on_event` count this event as a success (`download_ok` or
`download_skip`)? -/
def isSuccessEv : LoopEvent → Bool
  | .dlOk _ => true
  | .dlSkip _ => true
  | _ => false

/-- Number of success events in a trace — the increments applied to
`success_count`. -/
def countSucc (tr : List LoopEvent) : Nat :=
  (tr.filter isSuccessEv).length

/-- Number of `attempt_exhausted` events in a trace. -/
def countExh (tr : List LoopEvent) : Nat :=
  (tr.filter fun e =>
    match e with
    | .exhausted _ _ _ => true
    | _ => false).length

/-- One terminal event per cleaned identifier, outcomes indexed by global
attempt position. -/
def batchEventsGo (outcome : Nat → Outcome) : List String → Nat → List LoopEvent
  | [], _ => []
  | i :: rest, k => eventOfOutcome (outcome k) i :: batchEventsGo outcome rest (k + 1)

/-- The `download_entries` call made by the loop body, abstracted to its
event stream: same cleanup, empty-input and format pre-flight as
`download_entries`, then one terminal event per identifier. -/
def batchRun (fmt : String) (outcome : Nat → Outcome) (startPos : Nat)
    (batch : List String) : Except String (List LoopEvent) :=
  let ids := cleanIds batch
  if ids = [] then Except.ok []
  else if pyLower fmt ≠ "cif" ∧ pyLower fmt ≠ "pdb" then
    Except.error "file_format must be cif or pdb"
  else Except.ok (batchEventsGo outcome ids startPos)

/-- Loop state: Python's `success_count`, `idx`, `attempt_order`,
`attempted_set`, the top-up round counter, and whether an exception
escaped the loop (invalid format raised by `download_entries`). -/
structure LoopSt where
  success : Nat
  idx : Nat
  attemptOrder : List String
  attempted : List String
  topups : Nat
  crashed : Bool
deriving Repr

/-- The `while success_count < success_target` loop.  One fuel unit is one
iteration (a top-up and the batch it feeds count as two).  Returns the
emitted events and the final state, or `none` when fuel runs out. -/
def loopFuel (target : Nat) (fmt : String) (allIds : List String)
    (outcome : Nat → Outcome) (shuf : Nat → Nat → Nat) :
    Nat → LoopSt → Option (List LoopEvent × LoopSt)
  | 0, _ => none
  | fuel + 1, st =>
    if st.success < target then
      let needed := target - st.success
      let queue := st.attemptOrder.drop st.idx
      if queue = [] then
        let pool := allIds.filter fun e => !(st.attempted.contains e)
        if pool = [] then
          some ([LoopEvent.exhausted st.attemptOrder.length st.success target], st)
        else
          let topup := (shuffle_list (shuf st.topups) pool).take needed
          let st1 : LoopSt := { st with
            attemptOrder := st.attemptOrder ++ topup,
            attempted := st.attempted ++ topup,
            topups := st.topups + 1 }
          match loopFuel target fmt allIds outcome shuf fuel st1 with
          | none => none
          | some (tr, fin) =>
              some (LoopEvent.topup topup.length st1.attemptOrder.length :: tr, fin)
      else
        let batch := queue.take needed
        match batchRun fmt outcome st.idx batch with
        | .error _ =>
            some ([LoopEvent.batchStart batch.length], { st with crashed := true })
        | .ok bevs =>
          let st1 : LoopSt := { st with
            success := st.success + countSucc bevs,
            idx := st.idx + batch.length }
          match loopFuel target fmt allIds outcome shuf fuel st1 with
          | none => none
          | some (tr, fin) =>
              some (LoopEvent.batchStart batch.length :: bevs ++ tr, fin)
    else some ([], st)

/-- Initial loop state: `success = 0`, `idx = 0`,
`attempted_set = set(attempt_order)`. -/
def initLoopSt (attemptOrder0 : List String) : LoopSt :=
  ⟨0, 0, attemptOrder0, attemptOrder0, 0, false⟩

/-- Computable fuel bound sufficient for any run (proved below). -/
def loopFuelBound (allIds attemptOrder0 : List String) : Nat :=
  2 * allIds.length + attemptOrder0.length + 1


theorem countSucc_nil : countSucc [] = 0 := rfl

theorem countSucc_append (a b : List LoopEvent) :
    countSucc (a ++ b) = countSucc a + countSucc b := by
  simp [countSucc, List.filter_append]

theorem countSucc_cons_of_not_success {e : LoopEvent} (h : isSuccessEv e = false)
    (tr : List LoopEvent) : countSucc (e :: tr) = countSucc tr := by
  simp [countSucc, List.filter_cons, h]

theorem countSucc_le_length (tr : List LoopEvent) : countSucc tr ≤ tr.length :=
  List.length_filter_le _ _

theorem countExh_nil : countExh [] = 0 := rfl

theorem countExh_append (a b : List LoopEvent) :
    countExh (a ++ b) = countExh a + countExh b := by
  simp [countExh, List.filter_append]

/-- Events emitted for individual downloads (per-identifier terminal
events), as opposed to loop bookkeeping events. -/
def isDlEv : LoopEvent → Bool
  | .dlOk _ => true
  | .dlSkip _ => true
  | .dlErr _ => true
  | _ => false

theorem batchEventsGo_isDlEv (outcome : Nat → Outcome) :
    ∀ (ids : List String) (k : Nat) (e : LoopEvent),
      e ∈ batchEventsGo outcome ids k → isDlEv e = true := by
  intro ids
  induction ids with
  | nil => intro k e h; simp [batchEventsGo] at h
  | cons i rest ih =>
    intro k e h
    simp only [batchEventsGo, List.mem_cons] at h
    rcases h with h | h
    · subst h
      cases outcome k <;> rfl
    · exact ih (k + 1) e h

theorem batchEventsGo_length (outcome : Nat → Outcome) :
    ∀ (ids : List String) (k : Nat),
      (batchEventsGo outcome ids k).length = ids.length := by
  intro ids
  induction ids with
  | nil => intro k; rfl
  | cons i rest ih => intro k; simp [batchEventsGo, ih (k + 1)]

theorem countExh_of_isDlEv (tr : List LoopEvent)
    (h : ∀ e ∈ tr, isDlEv e = true) : countExh tr = 0 := by
  unfold countExh
  rw [List.filter_eq_nil_iff.mpr]
  · rfl
  · intro e he
    have := h e he
    cases e <;> simp_all [isDlEv]

theorem cleanIds_length_le (l : List String) : (cleanIds l).length ≤ l.length :=
  List.length_filterMap_le _ _


theorem batchRun_ok_facts (fmt : String) (outcome : Nat → Outcome) (pos : Nat)
    (batch : List String) (evs : List LoopEvent)
    (h : batchRun fmt outcome pos batch = Except.ok evs) :
    evs.length ≤ batch.length ∧ ∀ e ∈ evs, isDlEv e = true := by
  by_cases hids : cleanIds batch = []
  · rw [batchRun, if_pos hids] at h
    injection h with h
    subst h
    exact ⟨by simp, by intro e he; simp at he⟩
  · by_cases hfmt : pyLower fmt ≠ "cif" ∧ pyLower fmt ≠ "pdb"
    · rw [batchRun, if_neg hids, if_pos hfmt] at h
      exact absurd h (by simp)
    · rw [batchRun, if_neg hids, if_neg hfmt] at h
      injection h with h
      subst h
      constructor
      · rw [batchEventsGo_length]
        exact cleanIds_length_le batch
      · exact batchEventsGo_isDlEv outcome (cleanIds batch) pos

theorem loopFuel_zero (target : Nat) (fmt : String) (allIds : List String)
    (outcome : Nat → Outcome) (shuf : Nat → Nat → Nat) (st : LoopSt) :
    loopFuel target fmt allIds outcome shuf 0 st = none := rfl

theorem loopFuel_succ (target : Nat) (fmt : String) (allIds : List String)
    (outcome : Nat → Outcome) (shuf : Nat → Nat → Nat) (fuel : Nat) (st : LoopSt) :
    loopFuel target fmt allIds outcome shuf (fuel + 1) st
      = if st.success < target then
          if st.attemptOrder.drop st.idx = [] then
            if allIds.filter (fun e => !(st.attempted.contains e)) = [] then
              some ([LoopEvent.exhausted st.attemptOrder.length st.success target], st)
            else
              let topup := (shuffle_list (shuf st.topups)
                (allIds.filter (fun e => !(st.attempted.contains e)))).take
                  (target - st.success)
              let st1 : LoopSt := { st with
                attemptOrder := st.attemptOrder ++ topup,
                attempted := st.attempted ++ topup,
                topups := st.topups + 1 }
              match loopFuel target fmt allIds outcome shuf fuel st1 with
              | none => none
              | some (tr, fin) =>
                  some (LoopEvent.topup topup.length st1.attemptOrder.length :: tr, fin)
          else
            let batch := (st.attemptOrder.drop st.idx).take (target - st.success)
            match batchRun fmt outcome st.idx batch with
            | .error _ =>
                some ([LoopEvent.batchStart batch.length], { st with crashed := true })
            | .ok bevs =>
              let st1 : LoopSt := { st with
                success := st.success + countSucc bevs,
                idx := st.idx + batch.length }
              match loopFuel target fmt allIds outcome shuf fuel st1 with
              | none => none
              | some (tr, fin) =>
                  some (LoopEvent.batchStart batch.length :: bevs ++ tr, fin)
        else some ([], st) := rfl

theorem countSucc_cons_topup (a b : Nat) (tr : List LoopEvent) :
    countSucc (LoopEvent.topup a b :: tr) = countSucc tr := rfl

theorem countSucc_cons_batchStart (c : Nat) (tr : List LoopEvent) :
    countSucc (LoopEvent.batchStart c :: tr) = countSucc tr := rfl

theorem countSucc_cons_exhausted (a b c : Nat) (tr : List LoopEvent) :
    countSucc (LoopEvent.exhausted a b c :: tr) = countSucc tr := rfl

theorem loopFuel_success_bound (target : Nat) (fmt : String) (allIds : List String)
    (outcome : Nat → Outcome) (shuf : Nat → Nat → Nat) :
    ∀ (fuel : Nat) (st : LoopSt) (tr : List LoopEvent) (fin : LoopSt),
      loopFuel target fmt allIds outcome shuf fuel st = some (tr, fin) →
      st.success ≤ target →
      fin.success = st.success + countSucc tr ∧
      fin.success ≤ target ∧
      (∀ pre c suf, tr = pre ++ LoopEvent.batchStart c :: suf →
        st.success + countSucc pre + c ≤ target) := by
  intro fuel
  induction fuel with
  | zero =>
    intro st tr fin h _
    rw [loopFuel_zero] at h
    exact absurd h (by simp)
  | succ f ih =>
    intro st tr fin h hle
    rw [loopFuel_succ] at h
    by_cases hlt : st.success < target
    · rw [if_pos hlt] at h
      by_cases hq : st.attemptOrder.drop st.idx = []
      · rw [if_pos hq] at h
        by_cases hp : allIds.filter (fun e => !(st.attempted.contains e)) = []
        · rw [if_pos hp] at h
          injection h with h
          rw [Prod.mk.injEq] at h
          obtain ⟨htr, hfin⟩ := h
          subst htr
          subst hfin
          refine ⟨by rw [countSucc_cons_exhausted, countSucc_nil]; omega, hle, ?_⟩
          intro pre c suf hsplit
          cases pre with
          | nil => simp at hsplit
          | cons p pre2 =>
            simp only [List.cons_append, List.cons.injEq] at hsplit
            exact absurd hsplit.2 (by simp)
        · rw [if_neg hp] at h
          simp only [] at h
          generalize hrec : loopFuel target fmt allIds outcome shuf f
            { st with
              attemptOrder := st.attemptOrder ++
                (shuffle_list (shuf st.topups)
                  (allIds.filter (fun e => !(st.attempted.contains e)))).take
                    (target - st.success),
              attempted := st.attempted ++
                (shuffle_list (shuf st.topups)
                  (allIds.filter (fun e => !(st.attempted.contains e)))).take
                    (target - st.success),
              topups := st.topups + 1 } = orec at h
          cases orec with
          | none => exact absurd h (by simp)
          | some p =>
            obtain ⟨tr2, fin2⟩ := p
            simp only [] at h
            injection h with h
            rw [Prod.mk.injEq] at h
            obtain ⟨htr, hfin⟩ := h
            subst htr
            subst hfin
            obtain ⟨ih1, ih2, ih3⟩ := ih _ tr2 _ hrec (by dsimp only; exact hle)
            dsimp only at ih1 ih2 ih3
            refine ⟨by rw [countSucc_cons_topup]; exact ih1, ih2, ?_⟩
            intro pre c suf hsplit
            cases pre with
            | nil =>
              simp only [List.nil_append, List.cons.injEq] at hsplit
              exact absurd hsplit.1 (by simp)
            | cons p pre2 =>
              simp only [List.cons_append, List.cons.injEq] at hsplit
              obtain ⟨hpe, hsplit2⟩ := hsplit
              rw [← hpe, countSucc_cons_topup]
              exact ih3 pre2 c suf hsplit2
      · rw [if_neg hq] at h
        simp only [] at h
        have hbatchlen : ((st.attemptOrder.drop st.idx).take (target - st.success)).length
            ≤ target - st.success := by
          rw [List.length_take]
          omega
        generalize hbr : batchRun fmt outcome st.idx
            ((st.attemptOrder.drop st.idx).take (target - st.success)) = obr at h
        cases obr with
        | error msg =>
          simp only [] at h
          injection h with h
          rw [Prod.mk.injEq] at h
          obtain ⟨htr, hfin⟩ := h
          subst htr
          subst hfin
          refine ⟨by dsimp only; rw [countSucc_cons_batchStart, countSucc_nil]; omega,
            by dsimp only; exact hle, ?_⟩
          intro pre c suf hsplit
          cases pre with
          | nil =>
            simp only [List.nil_append, List.cons.injEq] at hsplit
            obtain ⟨hc, _⟩ := hsplit
            injection hc with hc
            rw [countSucc_nil]
            omega
          | cons p pre2 =>
            simp only [List.cons_append, List.cons.injEq] at hsplit
            exact absurd hsplit.2 (by simp)
        | ok bevs =>
          obtain ⟨hblen, hbdl⟩ := batchRun_ok_facts _ _ _ _ _ hbr
          have hsucc_bevs : countSucc bevs ≤ target - st.success := by
            have h1 := countSucc_le_length bevs
            omega
          simp only [] at h
          generalize hrec : loopFuel target fmt allIds outcome shuf f
            { st with
              success := st.success + countSucc bevs,
              idx := st.idx +
                ((st.attemptOrder.drop st.idx).take (target - st.success)).length } = orec at h
          cases orec with
          | none => exact absurd h (by simp)
          | some p =>
            obtain ⟨tr2, fin2⟩ := p
            simp only [] at h
            injection h with h
            rw [Prod.mk.injEq] at h
            obtain ⟨htr, hfin⟩ := h
            subst htr
            subst hfin
            obtain ⟨ih1, ih2, ih3⟩ := ih _ tr2 _ hrec (by dsimp only; omega)
            dsimp only at ih1 ih2 ih3
            refine ⟨?_, ih2, ?_⟩
            · rw [List.cons_append, countSucc_cons_batchStart, countSucc_append]
              omega
            · intro pre c suf hsplit
              rw [List.cons_append] at hsplit
              cases pre with
              | nil =>
                simp only [List.nil_append, List.cons.injEq] at hsplit
                obtain ⟨hc, _⟩ := hsplit
                injection hc with hc
                rw [countSucc_nil]
                omega
              | cons p pre2 =>
                simp only [List.cons_append, List.cons.injEq] at hsplit
                obtain ⟨hpe, hsplit2⟩ := hsplit
                rw [List.append_eq_append_iff] at hsplit2
                rcases hsplit2 with ⟨x, hx1, hx2⟩ | ⟨y, hy1, hy2⟩
                · have hone := ih3 x c suf hx2
                  rw [← hpe, countSucc_cons_batchStart, hx1, countSucc_append]
                  omega
                · cases y with
                  | nil =>
                    rw [List.append_nil] at hy1
                    rw [List.nil_append] at hy2
                    have hone := ih3 [] c suf (by rw [List.nil_append]; exact hy2.symm)
                    rw [countSucc_nil] at hone
                    rw [← hpe, countSucc_cons_batchStart, ← hy1]
                    omega
                  | cons e y2 =>
                    exfalso
                    have hmem : e ∈ bevs := by
                      rw [hy1]
                      simp
                    have hdl := hbdl e hmem
                    have he : e = LoopEvent.batchStart c := by
                      simp only [List.cons_append, List.cons.injEq] at hy2
                      exact hy2.1.symm
                    rw [he] at hdl
                    simp [isDlEv] at hdl
    · rw [if_neg hlt] at h
      injection h with h
      rw [Prod.mk.injEq] at h
      obtain ⟨htr, hfin⟩ := h
      subst htr
      subst hfin
      refine ⟨by simp [countSucc_nil], hle, ?_⟩
      intro pre c suf hsplit
      exact absurd hsplit.symm (by simp)

end PdbCrawler
namespace PdbCrawler

theorem contains_append_bool (a b : List String) (e : String) :
    (a ++ b).contains e = (a.contains e || b.contains e) := by
  simp [List.mem_append, Bool.decide_or]

theorem filter_not_contains_append (allIds att tp : List String) :
    allIds.filter (fun e => !((att ++ tp).contains e))
      = (allIds.filter (fun e => !(att.contains e))).filter
          (fun e => !(tp.contains e)) := by
  rw [List.filter_filter]
  apply List.filter_congr
  intro a _
  rw [contains_append_bool]
  cases h1 : att.contains a <;> cases h2 : tp.contains a <;> simp [h1, h2]

theorem filter_not_mem_length (pool tp : List String) (hsub : List.Subperm tp pool) :
    (pool.filter (fun e => !(tp.contains e))).length + tp.length ≤ pool.length := by
  have h1 : (pool.filter (fun e => !(tp.contains e))).length
      = pool.countP (fun e => !(tp.contains e)) := by
    rw [List.countP_eq_length_filter]
  have h2 : pool.length = pool.countP (fun e => tp.contains e)
      + pool.countP (fun e => !(tp.contains e)) := by
    have h := List.length_eq_countP_add_countP (l := pool) (fun e => tp.contains e)
    rw [h]
    congr 1
    apply List.countP_congr
    intro a _
    simp
  have h3 : tp.length ≤ pool.countP (fun e => tp.contains e) := by
    have h4 : tp.countP (fun e => tp.contains e) = tp.length := by
      apply List.countP_eq_length.mpr
      intro a ha
      simpa using List.elem_eq_true_of_mem ha
    have h5 := List.Subperm.countP_le (fun e => tp.contains e) hsub
    omega
  omega

/-- Termination measure of the download loop: the unattempted pool weighs
double so that a top-up (which moves items from the pool to the queue)
strictly decreases it, and a batch consumes the queue. -/
def loopMeasure (allIds : List String) (st : LoopSt) : Nat :=
  2 * (allIds.filter (fun e => !(st.attempted.contains e))).length
    + (st.attemptOrder.length - st.idx)

theorem loopFuel_terminates (target : Nat) (fmt : String) (allIds : List String)
    (outcome : Nat → Outcome) (shuf : Nat → Nat → Nat) :
    ∀ (fuel : Nat) (st : LoopSt),
      loopMeasure allIds st < fuel → st.idx ≤ st.attemptOrder.length →
      (loopFuel target fmt allIds outcome shuf fuel st).isSome = true := by
  intro fuel
  induction fuel with
  | zero => intro st h _; omega
  | succ f ih =>
    intro st hm hidx
    rw [loopFuel_succ]
    by_cases hlt : st.success < target
    · rw [if_pos hlt]
      by_cases hq : st.attemptOrder.drop st.idx = []
      · rw [if_pos hq]
        by_cases hp : allIds.filter (fun e => !(st.attempted.contains e)) = []
        · rw [if_pos hp]
          rfl
        · rw [if_neg hp]
          simp only []
          have hidx_ge : st.attemptOrder.length ≤ st.idx := by
            rwa [List.drop_eq_nil_iff] at hq
          have hsub : List.Subperm
              ((shuffle_list (shuf st.topups)
                (allIds.filter (fun e => !(st.attempted.contains e)))).take
                  (target - st.success))
              (allIds.filter (fun e => !(st.attempted.contains e))) :=
            ((List.take_sublist _ _).subperm).trans
              (shuffle_list_perm _ _).subperm
          have htp_pos : 0 < ((shuffle_list (shuf st.topups)
              (allIds.filter (fun e => !(st.attempted.contains e)))).take
                (target - st.success)).length := by
            rw [List.length_take, shuffle_list_length]
            have hp1 : 0 < (allIds.filter
                (fun e => !(st.attempted.contains e))).length :=
              List.length_pos.mpr hp
            omega
          have hA := filter_not_mem_length _ _ hsub
          have hm1 : loopMeasure allIds
              { st with
                attemptOrder := st.attemptOrder ++
                  (shuffle_list (shuf st.topups)
                    (allIds.filter (fun e => !(st.attempted.contains e)))).take
                      (target - st.success),
                attempted := st.attempted ++
                  (shuffle_list (shuf st.topups)
                    (allIds.filter (fun e => !(st.attempted.contains e)))).take
                      (target - st.success),
                topups := st.topups + 1 } < f := by
            unfold loopMeasure at hm ⊢
            dsimp only
            rw [filter_not_contains_append, List.length_append]
            omega
          have hrec := ih _ hm1 (by dsimp only; rw [List.length_append]; omega)
          cases hsome : loopFuel target fmt allIds outcome shuf f
              { st with
                attemptOrder := st.attemptOrder ++
                  (shuffle_list (shuf st.topups)
                    (allIds.filter (fun e => !(st.attempted.contains e)))).take
                      (target - st.success),
                attempted := st.attempted ++
                  (shuffle_list (shuf st.topups)
                    (allIds.filter (fun e => !(st.attempted.contains e)))).take
                      (target - st.success),
                topups := st.topups + 1 } with
          | none => rw [hsome] at hrec; simp at hrec
          | some p =>
            obtain ⟨tr2, fin2⟩ := p
            rfl
      · rw [if_neg hq]
        simp only []
        have hq_pos : 0 < (st.attemptOrder.drop st.idx).length :=
          List.length_pos.mpr hq
        have hbatch_pos : 0 < ((st.attemptOrder.drop st.idx).take
            (target - st.success)).length := by
          rw [List.length_take]
          omega
        have hbatch_le : ((st.attemptOrder.drop st.idx).take
            (target - st.success)).length ≤ st.attemptOrder.length - st.idx := by
          rw [List.length_take, List.length_drop]
          omega
        cases hbr : batchRun fmt outcome st.idx
            ((st.attemptOrder.drop st.idx).take (target - st.success)) with
        | error msg => rfl
        | ok bevs =>
          simp only []
          have hm1 : loopMeasure allIds
              { st with
                success := st.success + countSucc bevs,
                idx := st.idx + ((st.attemptOrder.drop st.idx).take
                  (target - st.success)).length } < f := by
            unfold loopMeasure at hm ⊢
            dsimp only
            omega
          have hrec := ih _ hm1 (by dsimp only; omega)
          cases hsome : loopFuel target fmt allIds outcome shuf f
              { st with
                success := st.success + countSucc bevs,
                idx := st.idx + ((st.attemptOrder.drop st.idx).take
                  (target - st.success)).length } with
          | none => rw [hsome] at hrec; simp at hrec
          | some p =>
            obtain ⟨tr2, fin2⟩ := p
            rfl
    · rw [if_neg hlt]
      rfl


theorem countExh_cons_topup (a b : Nat) (tr : List LoopEvent) :
    countExh (LoopEvent.topup a b :: tr) = countExh tr := rfl

theorem countExh_cons_batchStart (c : Nat) (tr : List LoopEvent) :
    countExh (LoopEvent.batchStart c :: tr) = countExh tr := rfl

theorem batchRun_ok_of_valid_format (fmt : String)
    (hfmt : pyLower fmt = "cif" ∨ pyLower fmt = "pdb")
    (outcome : Nat → Outcome) (pos : Nat) (batch : List String) :
    ∃ evs, batchRun fmt outcome pos batch = Except.ok evs := by
  by_cases hids : cleanIds batch = []
  · exact ⟨[], by rw [batchRun, if_pos hids]⟩
  · refine ⟨batchEventsGo outcome (cleanIds batch) pos, ?_⟩
    rw [batchRun, if_neg hids, if_neg ?_]
    rcases hfmt with h | h <;> simp [h]

theorem loopFuel_exh_char (target : Nat) (fmt : String) (allIds : List String)
    (outcome : Nat → Outcome) (shuf : Nat → Nat → Nat)
    (hfmt : pyLower fmt = "cif" ∨ pyLower fmt = "pdb") :
    ∀ (fuel : Nat) (st : LoopSt) (tr : List LoopEvent) (fin : LoopSt),
      loopFuel target fmt allIds outcome shuf fuel st = some (tr, fin) →
      countExh tr = (if fin.success < target then 1 else 0) := by
  intro fuel
  induction fuel with
  | zero =>
    intro st tr fin h
    rw [loopFuel_zero] at h
    exact absurd h (by simp)
  | succ f ih =>
    intro st tr fin h
    rw [loopFuel_succ] at h
    by_cases hlt : st.success < target
    · rw [if_pos hlt] at h
      by_cases hq : st.attemptOrder.drop st.idx = []
      · rw [if_pos hq] at h
        by_cases hp : allIds.filter (fun e => !(st.attempted.contains e)) = []
        · rw [if_pos hp] at h
          injection h with h
          rw [Prod.mk.injEq] at h
          obtain ⟨htr, hfin⟩ := h
          subst htr
          subst hfin
          rw [if_pos hlt]
          rfl
        · rw [if_neg hp] at h
          simp only [] at h
          generalize hrec : loopFuel target fmt allIds outcome shuf f
            { st with
              attemptOrder := st.attemptOrder ++
                (shuffle_list (shuf st.topups)
                  (allIds.filter (fun e => !(st.attempted.contains e)))).take
                    (target - st.success),
              attempted := st.attempted ++
                (shuffle_list (shuf st.topups)
                  (allIds.filter (fun e => !(st.attempted.contains e)))).take
                    (target - st.success),
              topups := st.topups + 1 } = orec at h
          cases orec with
          | none => exact absurd h (by simp)
          | some p =>
            obtain ⟨tr2, fin2⟩ := p
            simp only [] at h
            injection h with h
            rw [Prod.mk.injEq] at h
            obtain ⟨htr, hfin⟩ := h
            subst htr
            subst hfin
            rw [countExh_cons_topup]
            exact ih _ tr2 _ hrec
      · rw [if_neg hq] at h
        simp only [] at h
        obtain ⟨bevs, hbr⟩ := batchRun_ok_of_valid_format fmt hfmt outcome st.idx
          ((st.attemptOrder.drop st.idx).take (target - st.success))
        rw [hbr] at h
        simp only [] at h
        obtain ⟨hblen, hbdl⟩ := batchRun_ok_facts _ _ _ _ _ hbr
        generalize hrec : loopFuel target fmt allIds outcome shuf f
          { st with
            success := st.success + countSucc bevs,
            idx := st.idx +
              ((st.attemptOrder.drop st.idx).take (target - st.success)).length } = orec at h
        cases orec with
        | none => exact absurd h (by simp)
        | some p =>
          obtain ⟨tr2, fin2⟩ := p
          simp only [] at h
          injection h with h
          rw [Prod.mk.injEq] at h
          obtain ⟨htr, hfin⟩ := h
          subst htr
          subst hfin
          rw [List.cons_append, countExh_cons_batchStart, countExh_append,
            countExh_of_isDlEv bevs hbdl]
          have := ih _ tr2 _ hrec
          omega
    · rw [if_neg hlt] at h
      injection h with h
      rw [Prod.mk.injEq] at h
      obtain ⟨htr, hfin⟩ := h
      subst htr
      subst hfin
      rw [if_neg hlt]
      rfl


/-- C2: in the download loop, every batch issued (each `download_start`
event with count `c`) satisfies `c ≤ target - success` at the moment it is
issued, where `success` is the number of `download_ok`/`download_skip`
events already emitted; consequently the cumulative success count never
exceeds `target` at any point of the run. -/
theorem C2_batch_never_overshoots (target : Nat) (fmt : String)
    (allIds attemptOrder0 : List String) (outcome : Nat → Outcome)
    (shuf : Nat → Nat → Nat) (fuel : Nat) (tr : List LoopEvent) (fin : LoopSt)
    (h : loopFuel target fmt allIds outcome shuf fuel (initLoopSt attemptOrder0)
        = some (tr, fin)) :
    (∀ pre c suf, tr = pre ++ LoopEvent.batchStart c :: suf →
      c + countSucc pre ≤ target) ∧
    (∀ n, countSucc (tr.take n) ≤ target) := by
  obtain ⟨h1, h2, h3⟩ := loopFuel_success_bound target fmt allIds outcome shuf fuel
    (initLoopSt attemptOrder0) tr fin h (by simp [initLoopSt])
  constructor
  · intro pre c suf hs
    have h4 := h3 pre c suf hs
    simp only [initLoopSt] at h4
    omega
  · intro n
    have hmono : countSucc (tr.take n) ≤ countSucc tr :=
      ((List.take_sublist n tr).filter isSuccessEv).length_le
    simp only [initLoopSt] at h1
    omega

/-- Witness for C2: a two-element batch of all-successes with target 2. -/
theorem C2_batch_never_overshoots_witness :
    loopFuel 2 "pdb" ["A", "B", "C"] (fun _ => Outcome.ok) (fun _ _ => 0) 8
        (initLoopSt ["A", "B"])
      = some ([LoopEvent.batchStart 2, LoopEvent.dlOk "A", LoopEvent.dlOk "B"],
          ⟨2, 2, ["A", "B"], ["A", "B"], 0, false⟩) ∧
    2 + countSucc [] ≤ 2 :=
  ⟨rfl,
    (C2_batch_never_overshoots 2 "pdb" ["A", "B", "C"] ["A", "B"]
        (fun _ => Outcome.ok) (fun _ _ => 0) 8 _ _ rfl).1
      [] 2 [LoopEvent.dlOk "A", LoopEvent.dlOk "B"] rfl⟩

/-- C3: the download loop always terminates — the computable fuel bound
returns a result for every outcome sequence — and, when the format is
valid, the run emits `attempt_exhausted` exactly once if it ends with
`success < target` and never otherwise; moreover from any state with an
empty pending queue and an empty top-up pool while `success < target`, the
loop emits exactly one `attempt_exhausted` event and stops immediately in
that state. -/
theorem C3_loop_terminates (target : Nat) (fmt : String)
    (allIds attemptOrder0 : List String) (outcome : Nat → Outcome)
    (shuf : Nat → Nat → Nat)
    (hfmt : pyLower fmt = "cif" ∨ pyLower fmt = "pdb") :
    (∃ tr fin, loopFuel target fmt allIds outcome shuf
        (loopFuelBound allIds attemptOrder0) (initLoopSt attemptOrder0)
        = some (tr, fin) ∧
      countExh tr ≤ 1 ∧
      (fin.success < target ↔ countExh tr = 1)) ∧
    (∀ (st : LoopSt) (fuel : Nat), st.success < target →
      st.attemptOrder.drop st.idx = [] →
      allIds.filter (fun e => !(st.attempted.contains e)) = [] →
      loopFuel target fmt allIds outcome shuf (fuel + 1) st
        = some ([LoopEvent.exhausted st.attemptOrder.length st.success target], st)) := by
  constructor
  · have hterm := loopFuel_terminates target fmt allIds outcome shuf
      (loopFuelBound allIds attemptOrder0) (initLoopSt attemptOrder0)
      (by
        unfold loopMeasure loopFuelBound initLoopSt
        dsimp only
        have := List.length_filter_le (fun e => !(attemptOrder0.contains e)) allIds
        omega)
      (by simp [initLoopSt])
    generalize hres : loopFuel target fmt allIds outcome shuf
      (loopFuelBound allIds attemptOrder0) (initLoopSt attemptOrder0) = ores at hterm
    cases ores with
    | none => simp at hterm
    | some p =>
      obtain ⟨tr, fin⟩ := p
      have hchar := loopFuel_exh_char target fmt allIds outcome shuf hfmt
        (loopFuelBound allIds attemptOrder0) (initLoopSt attemptOrder0) tr fin hres
      refine ⟨tr, fin, rfl, ?_, ?_⟩
      · rw [hchar]
        split <;> omega
      · rw [hchar]
        constructor
        · intro hlt
          rw [if_pos hlt]
        · intro h1
          by_contra hge
          rw [if_neg hge] at h1
          omega
  · intro st fuel hlt hq hp
    rw [loopFuel_succ, if_pos hlt, if_pos hq, if_pos hp]

/-- Witness for C3: a one-identifier universe whose only download fails
permanently; the loop stops after one `attempt_exhausted`. -/
theorem C3_loop_terminates_witness :
    (pyLower "pdb" = "cif" ∨ pyLower "pdb" = "pdb") ∧
    (∃ tr fin, loopFuel 1 "pdb" ["A"] (fun _ => Outcome.err) (fun _ _ => 0)
        (loopFuelBound ["A"] ["A"]) (initLoopSt ["A"]) = some (tr, fin) ∧
      countExh tr ≤ 1 ∧
      (fin.success < 1 ↔ countExh tr = 1)) :=
  ⟨Or.inr (by decide),
    (C3_loop_terminates 1 "pdb" ["A"] ["A"] (fun _ => Outcome.err) (fun _ _ => 0)
      (Or.inr (by decide))).1⟩

end PdbCrawler
